import Mathlib

/-!
# Checkstyle report parser: embedding and verification

A shallow embedding of `modules/checkstyle/checkstyle.go`.

Conventions of the embedding.

* A Go `string` / `[]byte` is a `List Char`.  All patterns and separators of
  the module are ASCII, so matching on characters and matching on UTF-8 bytes
  agree.
* A Go `int` is an `Int`; the target is taken to be a 64-bit platform and the
  two subtractions of `getSnippet` wrap at 64 bits (`wrapInt`).
* A sequential function of the Go code either returns or stops the process.
  The ways the process can stop are the constructors of `Failure`; a function
  that can stop returns `Except Failure _`.
* `GetIssues` runs one unit of work (a goroutine) per line, and what a call
  does depends on the scheduler.  `GetIssuesRun` gives the outcome of the call
  for each `Schedule`: the order in which the units complete, the iteration
  whose line each unit finds in the range variable `line` (the closure shares
  the variable with the loop, unless the module declares Go 1.22 or later),
  and whether, when a unit panics, the call returns before the process ends.
  The functions `GetIssues` and `GetIssuesOrder` are the runs in which each
  unit reads the line of its own iteration and the process ends at the first
  failure (`GetIssuesRun_inOrder`).
* The Go standard library (`regexp`, `strings.Split`, `strconv.Atoi`) is
  modelled by the small executable definitions of the first sections.
-/

set_option autoImplicit false

namespace Checkstyle

/-! ## Runtime failures -/

/-- The ways a call can stop the process instead of returning. -/
inductive Failure where
  /-- Fatal exit `log.Fatalf("Cannot convert line number to integer: ...")`. -/
  | fatalLineNumber
  /-- Fatal exit `log.Fatalf("Cannot convert column number to integer: ...")`. -/
  | fatalColumnNumber
  /-- Run-time panic: index out of range. -/
  | indexOutOfRange
  /-- Run-time panic: slice bounds out of range. -/
  | sliceOutOfRange
  deriving DecidableEq, Repr

/-- Go indexing `xs[i]`: panics when `i` is not below `len(xs)`. -/
def goIndex {α : Type} (xs : List α) (i : Nat) : Except Failure α :=
  match xs.get? i with
  | some x => .ok x
  | none => .error .indexOutOfRange

/-- Go slicing `xs[lo:hi]` of a slice whose capacity is its length: panics
unless `0 ≤ lo ≤ hi ≤ len(xs)`. -/
def goSlice {α : Type} (xs : List α) (lo hi : Int) : Except Failure (List α) :=
  if 0 ≤ lo ∧ lo ≤ hi ∧ hi ≤ (xs.length : Int) then
    .ok ((xs.take hi.toNat).drop lo.toNat)
  else .error .sliceOutOfRange

/-! ## Machine integers -/

/-- Largest value of a 64-bit Go `int`. -/
def maxInt : Int := 2 ^ 63 - 1

/-- Smallest value of a 64-bit Go `int`. -/
def minInt : Int := -(2 ^ 63)

/-- Two's complement wrap-around of a mathematical integer to 64 bits. -/
def wrapInt (x : Int) : Int := (x + 2 ^ 63) % 2 ^ 64 - 2 ^ 63

/-! ## `regexp`: the fragment used by the module

Every pattern of the module is a sequence of atoms: `^`, `$`, a literal
character, or `\w*`.  Matching is leftmost-first with greedy repetition, as a
backtracking matcher computes it. -/

/-- One atom of a pattern. -/
inductive Atom where
  /-- Anchor `^` (no multi-line flag): the beginning of the text. -/
  | bot
  /-- Anchor `$` (no multi-line flag): the end of the text. -/
  | eot
  /-- A literal character, such as `\[` or a plain space. -/
  | lit (c : Char)
  /-- Repetition `\w*`: a greedy run of word characters. -/
  | wordStar
  deriving DecidableEq, Repr

/-- A pattern is a sequence of atoms. -/
abbrev Regexp := List Atom

/-- The class `\w` of RE2: `[0-9A-Za-z_]`. -/
def isWordChar (c : Char) : Bool := c.isAlphanum || c == '_'

/-- Greedy repetition of `\w` followed by the continuation `k`: take a word
character and go on if that leads to a match, otherwise stop here.  The flag
tells whether the current position is the beginning of the text. -/
def starLoop (k : Bool → List Char → Option (List Char)) :
    Bool → List Char → Option (List Char)
  | b, [] => k b []
  | b, c :: cs =>
    if isWordChar c then
      match starLoop k false cs with
      | some r => some r
      | none => k b (c :: cs)
    else k b (c :: cs)

/-- Match the pattern at the current position; the result is the text left
after the match.  The flag tells whether the current position is the beginning
of the text. -/
def matchHere : Regexp → Bool → List Char → Option (List Char)
  | [], _, s => some s
  | .bot :: re, b, s => if b then matchHere re b s else none
  | .eot :: re, b, s => if s.isEmpty then matchHere re b s else none
  | .lit c :: re, _, s =>
    match s with
    | [] => none
    | x :: xs => if x = c then matchHere re false xs else none
  | .wordStar :: re, b, s => starLoop (matchHere re) b s

/-- Leftmost match at or after the current position: the text before the
match, the matched text and the text after it. -/
def findAt (re : Regexp) :
    Bool → List Char → Option (List Char × List Char × List Char)
  | b, [] =>
    match matchHere re b [] with
    | some rest => some ([], [], rest)
    | none => none
  | b, c :: cs =>
    match matchHere re b (c :: cs) with
    | some rest => some ([], (c :: cs).take ((c :: cs).length - rest.length), rest)
    | none =>
      match findAt re false cs with
      | some (pre, m, post) => some (c :: pre, m, post)
      | none => none

/-- Method `(*Regexp).Find`: the text of the leftmost match; the nil slice (here the
empty list) when there is none. -/
def Regexp.Find (re : Regexp) (s : List Char) : List Char :=
  match findAt re true s with
  | some (_, m, _) => m
  | none => []

/-- The loop of `(*Regexp).Split(s, -1)` over the successive matches, for a
pattern that never matches the empty text (every pattern of the module has a
literal).  The first argument bounds the number of matches. -/
def splitLoop (re : Regexp) : Nat → Bool → List Char → List (List Char)
  | 0, _, s => [s]
  | fuel + 1, b, s =>
    match findAt re b s with
    | none => [s]
    | some (pre, _, post) => pre :: splitLoop re fuel false post

/-- Method `(*Regexp).Split(s, -1)`: the pieces of `s` between the successive
non-overlapping matches. -/
def Regexp.Split (re : Regexp) (s : List Char) : List (List Char) :=
  splitLoop re (s.length + 1) true s

/-- Pattern `^\[\w*\] `: the WARN label generated by checkstyle. -/
def warnExp : Regexp := [.bot, .lit '[', .wordStar, .lit ']', .lit ' ']

/-- Pattern `\: `: the colon before the error description. -/
def pathExp : Regexp := [.lit ':', .lit ' ']

/-- Pattern `\:`: a colon, separating path, line and column. -/
def lineColExp : Regexp := [.lit ':']

/-- Pattern `\[\w*\]$`: the check label at the end of the line. -/
def checkExp : Regexp := [.lit '[', .wordStar, .lit ']', .eot]

/-- Pattern `\. \[`: the full stop at the end of the error description. -/
def descExp : Regexp := [.lit '.', .lit ' ', .lit '[']

/-! ## `strings.Split` -/

/-- Function `strings.Index` for a non-empty separator, as a cut: the text before the
first occurrence of `sep` and the text after it. -/
def stringsCut (sep : List Char) : List Char → Option (List Char × List Char)
  | [] => none
  | c :: cs =>
    if sep.isPrefixOf (c :: cs) then some ([], (c :: cs).drop sep.length)
    else
      match stringsCut sep cs with
      | some (pre, post) => some (c :: pre, post)
      | none => none

/-- The loop of `strings.genSplit`: cut at the first occurrence of `sep` and
go on with the rest.  The first argument bounds the number of cuts. -/
def genSplit (sep : List Char) : Nat → List Char → List (List Char)
  | 0, s => [s]
  | n + 1, s =>
    match stringsCut sep s with
    | none => [s]
    | some (pre, post) => pre :: genSplit sep n post

/-- Function `strings.Split(s, sep)`: with an empty separator the text is exploded into
its characters, otherwise it is cut at every non-overlapping occurrence of
`sep`. -/
def stringsSplit (s sep : List Char) : List (List Char) :=
  if sep.isEmpty then s.map (fun c => [c]) else genSplit sep s.length s

/-! ## `strconv.Atoi` -/

/-- Value of a run of decimal digits, most significant first; `none` when a
character is not a digit. -/
def digitsValue : List Char → Nat → Option Nat
  | [], acc => some acc
  | c :: cs, acc =>
    if c.isDigit then digitsValue cs (acc * 10 + (c.toNat - '0'.toNat)) else none

/-- Function `strconv.Atoi` on a 64-bit platform: an optional sign, then at least one
decimal digit, and a value that fits an `int`; `none` stands for a non-nil
error. -/
def Atoi (s : List Char) : Option Int :=
  let neg := s.head? == some '-'
  let body := if s.head? == some '-' ∨ s.head? == some '+' then s.tail else s
  if body.isEmpty then none
  else
    match digitsValue body 0 with
    | none => none
    | some un =>
      if neg then
        if (un : Int) > 2 ^ 63 then none else some (-(un : Int))
      else
        if (un : Int) ≥ 2 ^ 63 then none else some (un : Int)

/-! ## The data model -/

/-- Modelled from the spec: the record type `models.Issue`, which is declared
outside this module; only the fields this module reads or writes are kept. -/
structure Issue where
  ReportID : Int := 0
  FilePath : List Char := []
  LineNumber : Int := 0
  ColumnNumber : Int := 0
  CheckName : List Char := []
  Description : List Char := []
  SourceSnippet : List Char := []
  deriving DecidableEq, Repr

/-! ## `parseLineIssue` -/

/-- The third statement group of `parseLineIssue`: the path, the line number
and the column number read from the colon-separated left part `path[0]`. -/
def parseLineCol (issue : Issue) (lineCol : List (List Char)) : Except Failure Issue := do
  let issue ←
    if lineCol.length > 0 then do
      let fp ← goIndex lineCol 0
      pure { issue with FilePath := fp }
    else pure issue
  let issue ←
    if lineCol.length > 1 then do
      let seg ← goIndex lineCol 1
      match Atoi seg with
      | none => throw Failure.fatalLineNumber
      | some i => pure { issue with LineNumber := i }
    else pure issue
  if lineCol.length > 2 then do
    let seg ← goIndex lineCol 2
    match Atoi seg with
    | none => throw Failure.fatalColumnNumber
    | some i => pure { issue with ColumnNumber := i }
  else pure issue

/-- The second statement group of `parseLineIssue`: the check name and the
description read from `path[1]`, the text after the first `": "`. -/
def parseRight (path1 : List Char) : Except Failure (List Char × List Char) := do
  let check := checkExp.Find path1
  let checkName ← goSlice check 1 ((check.length : Int) - 1)
  let desc := descExp.Split path1
  let desc0 ← goIndex desc 0
  pure (checkName, desc0 ++ ".".toList)

/-- Function `parseLineIssue` parses a single line written by checkstyle into
an issue; the boolean tells whether the line was recognised. -/
def parseLineIssue (line : List Char) : Except Failure (Bool × Option Issue) :=
  if warnExp.Find line ≠ "[WARN] ".toList then .ok (false, none)
  else do
    let warn := warnExp.Split line
    let warn1 ← goIndex warn 1
    let path := pathExp.Split warn1
    let path1 ← goIndex path 1
    let (checkName, description) ← parseRight path1
    let issue : Issue := { CheckName := checkName, Description := description }
    let path0 ← goIndex path 0
    let lineCol := lineColExp.Split path0
    let issue ← parseLineCol issue lineCol
    pure (true, some issue)

/-! ## `getSnippet` -/

/-- The loop of `getSnippet` over the lines of the file; `i` is the index of
the head of the list and `snippet` the text collected so far. -/
def snippetLoop (startLine line : Int) : List (List Char) → Nat → List Char → List Char
  | [], _, snippet => snippet
  | lineStr :: rest, i, snippet =>
    if (i : Int) + 1 ≥ startLine ∧ (i : Int) + 1 ≤ line then
      if (i : Int) + 1 ≠ line then
        snippetLoop startLine line rest (i + 1) (snippet ++ lineStr ++ "\n".toList)
      else
        snippetLoop startLine line rest (i + 1) (snippet ++ lineStr)
    else snippetLoop startLine line rest (i + 1) snippet

/-- Function `getSnippet` returns the lines of the code required for a
snippet.  The file system is the function `fs` (`none`: the file cannot be
read) and `includeLines` is `settings.Config.CodeSnippetIncludeLines`. -/
def getSnippet (fs : List Char → Option (List Char)) (includeLines : Int)
    (path : List Char) (line col : Int) : List Char :=
  match fs path with
  | none => []
  | some file =>
    let startLine := if line < includeLines then line else wrapInt (line - includeLines)
    let lines := stringsSplit file "\n".toList
    let snippet := snippetLoop startLine line lines 0 []
    if col ≠ 0 then
      snippet ++ "\n".toList ++ (List.replicate (wrapInt (col - 1)).toNat ' ' ++ "^".toList)
    else snippet

/-! ## `GetIssues` -/

/-- One unit of work of `GetIssues`: parse the line and, when it is
recognised, complete the issue and append it to the shared collection. -/
def processLine (fs : List Char → Option (List Char)) (includeLines : Int)
    (path : List Char) (reportID : Int) (issues : List Issue) (line : List Char) :
    Except Failure (List Issue) := do
  let (ok, issue) ← parseLineIssue line
  match ok, issue with
  | true, some issue =>
    let issue := { issue with ReportID := reportID }
    let issue := { issue with
      SourceSnippet := getSnippet fs includeLines issue.FilePath issue.LineNumber issue.ColumnNumber }
    let fp ← goIndex (stringsSplit issue.FilePath path) 1
    let issue := { issue with FilePath := fp }
    pure (issues ++ [issue])
  | _, _ => pure issues

/-- Function `GetIssues` generates issues based on checkstyle's output.  This
is one run of the call: the units of work complete in the order of the lines,
each on the line of its own iteration, and the process ends at the first unit
that fails, before the call returns (`.error`).  All the runs of the call are
given by `GetIssuesRun`. -/
def GetIssues (fs : List Char → Option (List Char)) (includeLines : Int)
    (checkstyleOutput commitSHA path : List Char) (reportID : Int) :
    Except Failure (List Issue) :=
  let _ := commitSHA
  let lines := stringsSplit checkstyleOutput "\n".toList
  lines.foldlM (processLine fs includeLines path reportID) []

/-! ## The runs of `GetIssues` -/

/-- A failure is a run-time panic, not a fatal exit.  A goroutine that panics
runs its deferred functions before the process ends; `log.Fatalf` ends the
process at once (`os.Exit`) and runs none. -/
def Failure.isPanic : Failure → Bool
  | .indexOutOfRange => true
  | .sliceOutOfRange => true
  | .fatalLineNumber => false
  | .fatalColumnNumber => false

/-- One unit of work (one goroutine) of a run of `GetIssues`. -/
structure UnitRun where
  /-- The iteration of the loop, counted from 0, that launches the unit. -/
  launched : Nat
  /-- The iteration whose line the range variable `line` holds at the time the
  unit reads it, in `parseLineIssue(line)`. -/
  read : Nat
  deriving DecidableEq, Repr

/-- What the scheduler decides in a run of `GetIssues`. -/
structure Schedule where
  /-- The units of work, in the order in which they reach the end of their
  body: the append under the mutex, or the failure. -/
  units : List UnitRun
  /-- When a unit panics, its deferred `wg.Done()` runs before the panic ends
  the process; `true` when the other units are left to complete in that time,
  so that `wg.Wait()` lets the call return. -/
  returnsFirst : Bool
  deriving DecidableEq, Repr

/-- How a run of `GetIssues` ends. -/
inductive Outcome where
  /-- The call returns the collection `issues`; `crash` is the panic of a unit
  of work that ends the process after the return, if a unit panicked. -/
  | returned (issues : List Issue) (crash : Option Failure)
  /-- The process ends with the failure `e` and the call does not return. -/
  | stopped (e : Failure)
  deriving DecidableEq, Repr

/-- The line the range variable `line` holds during iteration `i` of the loop
over `lines` (the empty text past the last iteration, which no unit of a
schedule of the call reads). -/
def lineAt (lines : List (List Char)) (i : Nat) : List Char :=
  (lines[i]?).getD []

/-- The units of work of a run, taken in their order of completion.  The
units share two things: the range variable `line`, which each reads once, and
the collection, to which each appends under the mutex; the rest of a unit
works on its own data.  So a unit is `processLine` on the line it reads,
applied to the collection as the units before it left it.  A fatal error ends
the process.  A panic runs the deferred `wg.Done()`; then the process ends, or
(`returnsFirst`) the remaining units complete first, and the call returns
unless one of them ends the process. -/
def runUnits (fs : List Char → Option (List Char)) (includeLines : Int)
    (path : List Char) (reportID : Int) (lines : List (List Char)) (returnsFirst : Bool) :
    List UnitRun → List Issue → Option Failure → Outcome
  | [], issues, crash => .returned issues crash
  | u :: rest, issues, crash =>
    match processLine fs includeLines path reportID issues (lineAt lines u.read) with
    | .ok issues2 => runUnits fs includeLines path reportID lines returnsFirst rest issues2 crash
    | .error e =>
      if e.isPanic && returnsFirst then
        runUnits fs includeLines path reportID lines returnsFirst rest issues (crash <|> some e)
      else .stopped e

/-- Function `GetIssues` generates issues based on checkstyle's output: the
outcome of the call in the run the schedule `s` describes.  The call returns
after `wg.Wait()`, that is once every unit has run its deferred `wg.Done()`:
every unit has completed or panicked, and none has ended the process. -/
def GetIssuesRun (fs : List Char → Option (List Char)) (includeLines : Int)
    (checkstyleOutput commitSHA path : List Char) (reportID : Int) (s : Schedule) : Outcome :=
  let _ := commitSHA
  let lines := stringsSplit checkstyleOutput "\n".toList
  runUnits fs includeLines path reportID lines s.returnsFirst s.units [] none


/-! ## Vocabulary of the statements -/

/-- The test of the loop of `getSnippet`: the 1-based index of the line lies in
the window `[startLine, line]`. -/
def inWindow (startLine line : Int) (il : Nat × List Char) : Bool :=
  decide (startLine ≤ (il.1 : Int) + 1 ∧ (il.1 : Int) + 1 ≤ line)

/-- What the loop of `getSnippet` appends for a line of the window: the line,
and a newline unless it is the target line. -/
def renderLine (line : Int) (il : Nat × List Char) : List Char :=
  if (il.1 : Int) + 1 = line then il.2 else il.2 ++ "\n".toList

/-- The natural number written by a run of decimal digits. -/
def numeralValue (ds : List Char) : Nat :=
  ds.foldl (fun acc c => acc * 10 + (c.toNat - '0'.toNat)) 0

/-- The text `s` is a decimal integer numeral of value `v`: at least one
decimal digit, with an optional sign `+` or `-` in front. -/
def IsIntNumeral (s : List Char) (v : Int) : Prop :=
  ∃ ds : List Char, ds ≠ [] ∧ (∀ c ∈ ds, c.isDigit = true) ∧
    (((s = ds ∨ s = '+' :: ds) ∧ v = (numeralValue ds : Int)) ∨
      (s = '-' :: ds ∧ v = -(numeralValue ds : Int)))

/-- The issue a unit of work of `GetIssues` appends for a recognised line:
the parsed issue with the report identifier, the source snippet and the file
path `fp` left after the base path. -/
def enrich (fs : List Char → Option (List Char)) (includeLines : Int) (reportID : Int)
    (issue : Issue) (fp : List Char) : Issue :=
  { issue with
    ReportID := reportID
    SourceSnippet := getSnippet fs includeLines issue.FilePath issue.LineNumber issue.ColumnNumber
    FilePath := fp }

/-- What the unit of work of a line contributes to the collection: the
enriched issue when the line is recognised and the base path can be removed,
nothing otherwise. -/
def unitIssue (fs : List Char → Option (List Char)) (includeLines : Int)
    (path : List Char) (reportID : Int) (line : List Char) : Option Issue :=
  match parseLineIssue line with
  | .ok (true, some issue) =>
    match goIndex (stringsSplit issue.FilePath path) 1 with
    | .ok fp => some (enrich fs includeLines reportID issue fp)
    | .error _ => none
  | _ => none

/-- The runs of `GetIssues` in which each unit of work reads the line of its
own iteration and the process ends at the first unit that fails: the units
complete, and append their issue, in the order `order`, a rearrangement of the
lines of the report. -/
def GetIssuesOrder (fs : List Char → Option (List Char)) (includeLines : Int)
    (path : List Char) (reportID : Int) (order : List (List Char)) :
    Except Failure (List Issue) :=
  order.foldlM (processLine fs includeLines path reportID) []

/-- The schedule `s` is one of a call on `n` lines: each iteration of the loop
launches one unit of work, and a unit reads the range variable during its own
iteration or a later one.  (The three slots of `workers` allow fewer
schedules still; they are not modelled.) -/
def Schedule.Valid (n : Nat) (s : Schedule) : Prop :=
  (s.units.map UnitRun.launched).Perm (List.range n) ∧
    ∀ u ∈ s.units, u.launched ≤ u.read ∧ u.read < n

/-- Every unit of work of the schedule reads the line of its own iteration:
the schedules of a module that declares Go 1.22 or later, in which each
iteration has its own variable `line`. -/
def Schedule.OwnLine (s : Schedule) : Prop :=
  ∀ u ∈ s.units, u.read = u.launched

/-- The schedule of a call on `n` lines in which the units complete in the
order of the lines, each on the line of its own iteration. -/
def Schedule.inOrder (n : Nat) (returnsFirst : Bool) : Schedule :=
  { units := (List.range n).map (fun i => { launched := i, read := i })
    returnsFirst := returnsFirst }

/-- The condition under which the unit of work of a line succeeds; it does
not mention the file system. -/
def UnitOk (base : List Char) (line : List Char) : Prop :=
  ∃ r, parseLineIssue line = .ok r ∧
    ∀ iss, r = (true, some iss) → ∃ fp, goIndex (stringsSplit iss.FilePath base) 1 = .ok fp


/-- The text `raw` is the raw description of the right part `right`: the
portion of `right` before its first occurrence of `". ["`, or the whole of
`right` when `". ["` does not occur in it. -/
def IsRawDescription (right raw : List Char) : Prop :=
  (¬ ". [".toList <:+: right ∧ raw = right) ∨
    ∃ tail, right = raw ++ ". [".toList ++ tail ∧
      ∀ u v, right = u ++ ". [".toList ++ v → raw.length ≤ u.length

/-! ## The matcher -/

theorem warnLabel_eq : "[WARN] ".toList = ['[', 'W', 'A', 'R', 'N', ']', ' '] := rfl

theorem starLoop_suffix (k : Bool → List Char → Option (List Char))
    (hk : ∀ b s r, k b s = some r → r <:+ s) :
    ∀ (s : List Char) (b : Bool) (r : List Char), starLoop k b s = some r → r <:+ s := by
  intro s
  induction s with
  | nil => intro b r h; exact hk b [] r (by simpa [starLoop] using h)
  | cons c cs ih =>
    intro b r h
    unfold starLoop at h
    split at h
    · split at h
      · next r' hr' =>
        cases h
        exact (ih false _ hr').trans (List.suffix_cons c cs)
      · exact hk _ _ _ h
    · exact hk _ _ _ h

theorem matchHere_suffix :
    ∀ (re : Regexp) (b : Bool) (s r : List Char), matchHere re b s = some r → r <:+ s := by
  intro re
  induction re with
  | nil => intro b s r h; simp [matchHere] at h; subst h; exact List.suffix_refl _
  | cons a re ih =>
    intro b s r h
    cases a with
    | bot =>
      simp only [matchHere] at h
      split at h
      · exact ih _ _ _ h
      · cases h
    | eot =>
      simp only [matchHere] at h
      split at h
      · exact ih _ _ _ h
      · cases h
    | lit c =>
      cases s with
      | nil => simp [matchHere] at h
      | cons x xs =>
        simp only [matchHere] at h
        split at h
        · exact (ih _ _ _ h).trans (List.suffix_cons x xs)
        · cases h
    | wordStar =>
      simp only [matchHere] at h
      exact starLoop_suffix _ ih s b r h

theorem findAt_sound (re : Regexp) :
    ∀ (s : List Char) (b : Bool) (pre m post : List Char),
      findAt re b s = some (pre, m, post) → s = pre ++ m ++ post := by
  intro s
  induction s with
  | nil =>
    intro b pre m post h
    simp only [findAt] at h
    split at h
    · next rest hr =>
      have := matchHere_suffix re b [] rest hr
      simp at this
      simp at h
      obtain ⟨rfl, rfl, rfl⟩ := h
      simp [this]
    · cases h
  | cons c cs ih =>
    intro b pre m post h
    simp only [findAt] at h
    split at h
    · next rest hr =>
      obtain ⟨t, ht⟩ := matchHere_suffix re b (c :: cs) rest hr
      simp only [Option.some.injEq, Prod.mk.injEq] at h
      obtain ⟨rfl, rfl, rfl⟩ := h
      rw [← ht]
      simp
    · split at h
      · next pre' m' post' hf =>
        simp only [Option.some.injEq, Prod.mk.injEq] at h
        obtain ⟨rfl, rfl, rfl⟩ := h
        have := ih false _ _ _ hf
        simp [this]
      · cases h

theorem findAt_bot_false (re : Regexp) :
    ∀ s : List Char, findAt (.bot :: re) false s = none := by
  intro s
  induction s with
  | nil => simp [findAt, matchHere]
  | cons c cs ih => simp [findAt, matchHere, ih]

theorem findAt_bot_pre (re : Regexp) (s pre m post : List Char)
    (h : findAt (.bot :: re) true s = some (pre, m, post)) : pre = [] := by
  cases s with
  | nil =>
    simp only [findAt] at h
    split at h
    · simp at h; exact h.1
    · cases h
  | cons c cs =>
    simp only [findAt] at h
    split at h
    · simp at h; exact h.1
    · rw [findAt_bot_false] at h; cases h

theorem find_warn_starts (line : List Char)
    (h : warnExp.Find line = "[WARN] ".toList) : "[WARN] ".toList <+: line := by
  unfold Regexp.Find at h
  split at h
  · next pre m post hf =>
    have hpre := findAt_bot_pre _ _ _ _ _ hf
    have hs := findAt_sound _ _ _ _ _ _ hf
    subst hpre
    subst h
    exact ⟨post, by simpa using hs.symm⟩
  · simp [warnLabel_eq] at h

theorem matchHere_warn (rest : List Char) :
    matchHere warnExp true ("[WARN] ".toList ++ rest) = some rest := by
  simp [warnLabel_eq, warnExp, matchHere, starLoop, isWordChar, Char.isAlphanum, Char.isAlpha,
    Char.isUpper, Char.isLower, Char.isDigit]
 
theorem findAt_warn (rest : List Char) :
    findAt warnExp true ("[WARN] ".toList ++ rest) = some ([], "[WARN] ".toList, rest) := by
  have h := matchHere_warn rest
  rw [warnLabel_eq] at h ⊢
  simp only [List.cons_append, List.nil_append] at h ⊢
  simp only [findAt, h, List.length_cons]
  have hlen : rest.length + 1 + 1 + 1 + 1 + 1 + 1 + 1 - rest.length = 7 := by omega
  rw [hlen]
  rfl

theorem find_warn (rest : List Char) :
    warnExp.Find ("[WARN] ".toList ++ rest) = "[WARN] ".toList := by
  rw [Regexp.Find, findAt_warn]

theorem split_warn (rest : List Char) :
    warnExp.Split ("[WARN] ".toList ++ rest) = [[], rest] := by
  unfold Regexp.Split
  rw [splitLoop, findAt_warn]
  simp only [warnLabel_eq, List.length_append, List.length_cons, List.length_nil]
  rw [show 0 + 1 + 1 + 1 + 1 + 1 + 1 + 1 + rest.length = (6 + rest.length) + 1 by omega]
  rw [splitLoop]
  simp [warnExp, findAt_bot_false]


/-! ## Splitting at a pattern that starts with a literal -/

theorem matchHere_lit_flag (c : Char) (re : Regexp) (b : Bool) (s : List Char) :
    matchHere (.lit c :: re) b s = matchHere (.lit c :: re) false s := by
  cases s <;> simp [matchHere]

theorem findAt_lit_flag (c : Char) (re : Regexp) (b : Bool) (s : List Char) :
    findAt (.lit c :: re) b s = findAt (.lit c :: re) false s := by
  cases s with
  | nil => simp [findAt, matchHere]
  | cons x xs => simp only [findAt, matchHere_lit_flag c re b]

theorem matchHere_lit_length (c : Char) (re : Regexp) (b : Bool) (s r : List Char)
    (h : matchHere (.lit c :: re) b s = some r) : r.length < s.length := by
  cases s with
  | nil => simp [matchHere] at h
  | cons x xs =>
    simp only [matchHere] at h
    split at h
    · have := (matchHere_suffix _ _ _ _ h).length_le
      simp only [List.length_cons]
      omega
    · cases h

theorem findAt_lit_length (c : Char) (re : Regexp) :
    ∀ (s : List Char) (b : Bool) (pre m post : List Char),
      findAt (.lit c :: re) b s = some (pre, m, post) → post.length < s.length := by
  intro s
  induction s with
  | nil => intro b pre m post h; simp [findAt, matchHere] at h
  | cons x xs ih =>
    intro b pre m post h
    simp only [findAt] at h
    split at h
    · next rest hr =>
      simp only [Option.some.injEq, Prod.mk.injEq] at h
      obtain ⟨-, -, rfl⟩ := h
      exact matchHere_lit_length _ _ _ _ _ hr
    · split at h
      · next pre' m' post' hf =>
        simp only [Option.some.injEq, Prod.mk.injEq] at h
        obtain ⟨-, -, rfl⟩ := h
        have := ih false _ _ _ hf
        simp only [List.length_cons]
        omega
      · cases h

theorem splitLoop_fuel (c : Char) (re : Regexp) :
    ∀ (n m : Nat) (b b' : Bool) (s : List Char), s.length < n → s.length < m →
      splitLoop (.lit c :: re) n b s = splitLoop (.lit c :: re) m b' s := by
  intro n
  induction n with
  | zero => intro m b b' s h; omega
  | succ n ih =>
    intro m b b' s hn hm
    cases m with
    | zero => omega
    | succ m =>
      simp only [splitLoop]
      rw [findAt_lit_flag c re b, findAt_lit_flag c re b']
      cases hf : findAt (.lit c :: re) false s with
      | none => rfl
      | some t =>
        obtain ⟨pre, mm, post⟩ := t
        have hl := findAt_lit_length c re s false pre mm post hf
        simp only
        rw [ih m false false post (by omega) (by omega)]

theorem split_none (c : Char) (re : Regexp) (s : List Char)
    (h : findAt (.lit c :: re) false s = none) : Regexp.Split (.lit c :: re) s = [s] := by
  unfold Regexp.Split
  rw [splitLoop, findAt_lit_flag, h]

theorem split_some (c : Char) (re : Regexp) (s pre m post : List Char)
    (h : findAt (.lit c :: re) false s = some (pre, m, post)) :
    Regexp.Split (.lit c :: re) s = pre :: Regexp.Split (.lit c :: re) post := by
  unfold Regexp.Split
  have hl := findAt_lit_length c re s false pre m post h
  rw [splitLoop, findAt_lit_flag, h]
  simp only
  rw [splitLoop_fuel c re s.length (post.length + 1) false true post hl (by omega)]

theorem split_ne_nil (re : Regexp) (s : List Char) : re.Split s ≠ [] := by
  unfold Regexp.Split
  rw [splitLoop]
  split <;> simp

/-! ## Steps of the leftmost search -/

theorem findAt_here (re : Regexp) (b : Bool) (m rest : List Char)
    (h : matchHere re b (m ++ rest) = some rest) :
    findAt re b (m ++ rest) = some ([], m, rest) := by
  cases hs : m ++ rest with
  | nil =>
    rw [hs] at h
    have hm : m = [] := (List.append_eq_nil.mp hs).1
    have hr : rest = [] := (List.append_eq_nil.mp hs).2
    subst hm; subst hr
    simp only [findAt, h]
  | cons c cs =>
    rw [hs] at h
    simp only [findAt, h]
    rw [← hs]
    simp

theorem findAt_skip (re : Regexp) (b : Bool) (c : Char) (cs pre m post : List Char)
    (h : matchHere re b (c :: cs) = none) (hf : findAt re false cs = some (pre, m, post)) :
    findAt re b (c :: cs) = some (c :: pre, m, post) := by
  simp only [findAt, h, hf]

theorem findAt_skip_none (re : Regexp) (b : Bool) (c : Char) (cs : List Char)
    (h : matchHere re b (c :: cs) = none) (hf : findAt re false cs = none) :
    findAt re b (c :: cs) = none := by
  simp only [findAt, h, hf]

/-! ## Where the literal patterns match -/

theorem matchHere_pathExp_none (c : Char) (x y : List Char)
    (h : ¬ [':', ' '] <:+: c :: x) (hy : y.head? ≠ some ' ') :
    matchHere pathExp false (c :: (x ++ y)) = none := by
  cases x with
  | nil =>
    cases y with
    | nil => simp [pathExp, matchHere]
    | cons d y =>
      have hd : d ≠ ' ' := by simpa using hy
      simp [pathExp, matchHere, hd]
  | cons d x =>
    simp only [pathExp, matchHere, List.cons_append]
    by_cases hc : c = ':'
    · by_cases hd : d = ' '
      · subst hc; subst hd
        exact absurd (List.prefix_append [':', ' '] x).isInfix h
      · simp [hd]
    · simp [hc]

theorem find_pathExp_none :
    ∀ x : List Char, ¬ [':', ' '] <:+: x → findAt pathExp false x = none := by
  intro x
  induction x with
  | nil => intro _; simp [findAt, pathExp, matchHere]
  | cons c x ih =>
    intro h
    have hx : ¬ [':', ' '] <:+: x := fun hh => h (hh.trans (List.suffix_cons c x).isInfix)
    have hm := matchHere_pathExp_none c x [] h (by simp)
    rw [List.append_nil] at hm
    exact findAt_skip_none _ _ _ _ hm (ih hx)

theorem find_pathExp :
    ∀ x y : List Char, ¬ [':', ' '] <:+: x →
      findAt pathExp false (x ++ ':' :: ' ' :: y) = some (x, [':', ' '], y) := by
  intro x
  induction x with
  | nil =>
    intro y _
    exact findAt_here pathExp false [':', ' '] y (by simp [pathExp, matchHere])
  | cons c x ih =>
    intro y h
    have hx : ¬ [':', ' '] <:+: x := fun hh => h (hh.trans (List.suffix_cons c x).isInfix)
    have hm := matchHere_pathExp_none c x (':' :: ' ' :: y) h (by simp)
    exact findAt_skip _ _ _ _ _ _ _ hm (ih y hx)

theorem matchHere_descExp_none (c : Char) (x y : List Char)
    (h : ¬ ['.', ' ', '['] <:+: c :: x) (hy : y.head? ≠ some ' ' ∧ y.head? ≠ some '[') :
    matchHere descExp false (c :: (x ++ y)) = none := by
  by_cases hc : c = '.'
  swap
  · simp [descExp, matchHere, hc]
  subst hc
  cases x with
  | nil =>
    cases y with
    | nil => simp [descExp, matchHere]
    | cons d y =>
      have hd : d ≠ ' ' := by simpa using hy.1
      simp [descExp, matchHere, hd]
  | cons d x =>
    by_cases hd : d = ' '
    swap
    · simp [descExp, matchHere, hd]
    subst hd
    cases x with
    | nil =>
      cases y with
      | nil => simp [descExp, matchHere]
      | cons e y =>
        have he : e ≠ '[' := by simpa using hy.2
        simp [descExp, matchHere, he]
    | cons e x =>
      by_cases he : e = '['
      · subst he
        exact absurd (List.prefix_append ['.', ' ', '['] x).isInfix h
      · simp [descExp, matchHere, he]

theorem find_descExp_none :
    ∀ x : List Char, ¬ ['.', ' ', '['] <:+: x → findAt descExp false x = none := by
  intro x
  induction x with
  | nil => intro _; simp [findAt, descExp, matchHere]
  | cons c x ih =>
    intro h
    have hx : ¬ ['.', ' ', '['] <:+: x :=
      fun hh => h (hh.trans (List.suffix_cons c x).isInfix)
    have hm := matchHere_descExp_none c x [] h (by simp)
    rw [List.append_nil] at hm
    exact findAt_skip_none _ _ _ _ hm (ih hx)

theorem find_descExp :
    ∀ x y : List Char, ¬ ['.', ' ', '['] <:+: x →
      findAt descExp false (x ++ '.' :: ' ' :: '[' :: y) = some (x, ['.', ' ', '['], y) := by
  intro x
  induction x with
  | nil =>
    intro y _
    exact findAt_here descExp false ['.', ' ', '['] y (by simp [descExp, matchHere])
  | cons c x ih =>
    intro y h
    have hx : ¬ ['.', ' ', '['] <:+: x :=
      fun hh => h (hh.trans (List.suffix_cons c x).isInfix)
    have hm := matchHere_descExp_none c x ('.' :: ' ' :: '[' :: y) h (by simp)
    exact findAt_skip _ _ _ _ _ _ _ hm (ih y hx)

theorem find_lineColExp_none :
    ∀ x : List Char, ':' ∉ x → findAt lineColExp false x = none := by
  intro x
  induction x with
  | nil => intro _; simp [findAt, lineColExp, matchHere]
  | cons c x ih =>
    intro h
    have hc : c ≠ ':' := fun hh => h (by simp [hh])
    have hx : ':' ∉ x := fun hh => h (List.mem_cons_of_mem _ hh)
    exact findAt_skip_none _ _ _ _ (by simp [lineColExp, matchHere, hc]) (ih hx)

theorem find_lineColExp :
    ∀ x y : List Char, ':' ∉ x →
      findAt lineColExp false (x ++ ':' :: y) = some (x, [':'], y) := by
  intro x
  induction x with
  | nil =>
    intro y _
    exact findAt_here lineColExp false [':'] y (by simp [lineColExp, matchHere])
  | cons c x ih =>
    intro y h
    have hc : c ≠ ':' := fun hh => h (by simp [hh])
    have hx : ':' ∉ x := fun hh => h (List.mem_cons_of_mem _ hh)
    exact findAt_skip _ _ _ _ _ _ _ (by simp [lineColExp, matchHere, hc]) (ih y hx)

/-! ## Where the check label matches -/

theorem isWordChar_bracket (c : Char) (h : isWordChar c = true) : c ≠ '[' ∧ c ≠ ']' := by
  constructor <;> rintro rfl <;> revert h <;> decide

theorem starLoop_label_none :
    ∀ (t : List Char) (b : Bool), '[' ∈ t →
      starLoop (matchHere [.lit ']', .eot]) b t = none := by
  intro t
  induction t with
  | nil => intro b h; simp at h
  | cons d t ih =>
    intro b h
    have hk : matchHere [.lit ']', .eot] b (d :: t) = none := by
      by_cases hd : d = ']'
      · subst hd
        have ht : '[' ∈ t := by simpa using h
        cases t with
        | nil => simp at ht
        | cons e t => simp [matchHere]
      · simp [matchHere, hd]
    unfold starLoop
    split
    · next hw =>
      have ht : '[' ∈ t := by
        rcases List.mem_cons.mp h with hh | hh
        · exact absurd hh.symm (isWordChar_bracket d hw).1
        · exact hh
      rw [ih false ht]
      exact hk
    · exact hk

theorem matchHere_checkExp_none (b : Bool) (c : Char) (t : List Char) (h : '[' ∈ t) :
    matchHere checkExp b (c :: t) = none := by
  simp only [checkExp, matchHere]
  split
  · exact starLoop_label_none t false h
  · rfl

theorem starLoop_label :
    ∀ (n : List Char) (b : Bool), (∀ c ∈ n, isWordChar c = true) →
      starLoop (matchHere [.lit ']', .eot]) b (n ++ [']']) = some [] := by
  intro n
  induction n with
  | nil => intro b _; simp [starLoop, matchHere, isWordChar]
  | cons c n ih =>
    intro b h
    have hc : isWordChar c = true := h c (by simp)
    have hn : ∀ c ∈ n, isWordChar c = true := fun x hx => h x (List.mem_cons_of_mem _ hx)
    have hi := ih false hn
    rw [List.cons_append, starLoop, if_pos hc, hi]

theorem find_checkExp (n : List Char) (hn : ∀ c ∈ n, isWordChar c = true) :
    ∀ d : List Char,
      findAt checkExp false (d ++ '[' :: (n ++ [']'])) = some (d, '[' :: (n ++ [']']), []) := by
  intro d
  induction d with
  | nil =>
    have := findAt_here checkExp false ('[' :: (n ++ [']'])) []
      (by simp only [List.append_nil, checkExp, matchHere, if_true]
          exact starLoop_label n false hn)
    simpa using this
  | cons c d ih =>
    exact findAt_skip _ _ _ _ _ _ _
      (matchHere_checkExp_none false c _ (by simp)) ih

/-! ## Decimal numerals -/

theorem digitChar_isDigit (k : Nat) (h : k < 10) :
    (Nat.digitChar k).isDigit = true ∧ (Nat.digitChar k).toNat - '0'.toNat = k := by
  interval_cases k <;> decide

theorem digitsValue_toDigitsCore :
    ∀ (fuel n : Nat) (acc : List Char), n < fuel →
      digitsValue (Nat.toDigitsCore 10 fuel n acc) 0 = digitsValue acc n := by
  intro fuel
  induction fuel with
  | zero => intro n acc h; omega
  | succ fuel ih =>
    intro n acc h
    have hd := digitChar_isDigit (n % 10) (Nat.mod_lt _ (by decide))
    simp only [Nat.toDigitsCore]
    split
    · next h0 =>
      have hn : n % 10 = n := by omega
      simp only [digitsValue, hd.1, if_true, hd.2]
      rw [hn]; simp
    · next h0 =>
      rw [ih (n / 10) _ (by omega)]
      simp only [digitsValue, hd.1, if_true, hd.2]
      rw [Nat.div_add_mod' n 10]

theorem digitsValue_toDigits (n : Nat) : digitsValue (Nat.toDigits 10 n) 0 = some n := by
  unfold Nat.toDigits
  rw [digitsValue_toDigitsCore _ _ _ (Nat.lt_succ_self n)]
  rfl

theorem toDigitsCore_digits :
    ∀ (fuel n : Nat) (acc : List Char), (∀ c ∈ acc, c.isDigit = true) →
      ∀ c ∈ Nat.toDigitsCore 10 fuel n acc, c.isDigit = true := by
  intro fuel
  induction fuel with
  | zero => intro n acc h; simpa [Nat.toDigitsCore] using h
  | succ fuel ih =>
    intro n acc h
    have hd := digitChar_isDigit (n % 10) (Nat.mod_lt _ (by decide))
    have hacc : ∀ c ∈ Nat.digitChar (n % 10) :: acc, c.isDigit = true := by
      intro c hc
      rcases List.mem_cons.mp hc with rfl | hc
      · exact hd.1
      · exact h c hc
    simp only [Nat.toDigitsCore]
    split
    · exact hacc
    · exact ih _ _ hacc

theorem toDigits_digits (n : Nat) : ∀ c ∈ Nat.toDigits 10 n, c.isDigit = true :=
  toDigitsCore_digits _ _ _ (by simp)

theorem toDigitsCore_ne_nil (fuel n : Nat) (acc : List Char) :
    Nat.toDigitsCore 10 (fuel + 1) n acc ≠ [] := by
  induction fuel generalizing n acc with
  | zero => simp [Nat.toDigitsCore]
  | succ fuel ih =>
    rw [Nat.toDigitsCore]
    split
    · simp
    · exact ih _ _

theorem toDigits_ne_nil (n : Nat) : Nat.toDigits 10 n ≠ [] :=
  toDigitsCore_ne_nil _ _ _

theorem isDigit_not_special (c : Char) (h : c.isDigit = true) :
    c ≠ '-' ∧ c ≠ '+' ∧ c ≠ ':' ∧ c ≠ ' ' := by
  refine ⟨?_, ?_, ?_, ?_⟩ <;> rintro rfl <;> revert h <;> decide

/-- The function `Atoi` reads back the decimal numeral of a natural number that fits an
`int`. -/
theorem Atoi_toDigits (n : Nat) (h : (n : Int) ≤ maxInt) :
    Atoi (Nat.toDigits 10 n) = some (n : Int) := by
  have hne := toDigits_ne_nil n
  have hdig := toDigits_digits n
  cases hs : Nat.toDigits 10 n with
  | nil => exact absurd hs hne
  | cons c cs =>
    have hc : c.isDigit = true := hdig c (by simp [hs])
    obtain ⟨h1, h2, -, -⟩ := isDigit_not_special c hc
    have hv := digitsValue_toDigits n
    rw [hs] at hv
    unfold maxInt at h
    simp only [Atoi, List.head?_cons, beq_iff_eq, Option.some.injEq, h1, h2, or_self, if_false,
      List.isEmpty_cons, hv, Bool.false_eq_true]
    rw [if_neg (by omega)]

/-! ## Occurrences of the two-character separator -/

theorem infix_colonSpace_skip :
    ∀ x y : List Char, ':' ∉ x → [':', ' '] <:+: x ++ y → [':', ' '] <:+: y := by
  intro x
  induction x with
  | nil => intro y _ h; simpa using h
  | cons c x ih =>
    intro y hx h
    have hc : c ≠ ':' := fun hh => hx (by simp [hh])
    have hx' : ':' ∉ x := fun hh => hx (List.mem_cons_of_mem _ hh)
    rw [List.cons_append, List.infix_cons_iff] at h
    rcases h with h | h
    · obtain ⟨t, ht⟩ := h
      simp only [List.cons_append, List.cons.injEq] at ht
      exact absurd ht.1.symm hc
    · exact ih y hx' h

theorem infix_colonSpace_colon (d : Char) (y : List Char) (hd : d ≠ ' ')
    (h : [':', ' '] <:+: ':' :: d :: y) : [':', ' '] <:+: d :: y := by
  rw [List.infix_cons_iff] at h
  rcases h with h | h
  · obtain ⟨t, ht⟩ := h
    simp only [List.cons_append, List.cons.injEq] at ht
    exact absurd ht.2.1.symm hd
  · exact h

theorem not_infix_append_tail (a b : Char) :
    ∀ x y : List Char, ¬ [a, b] <:+: x → a ∉ y → y.head? ≠ some b → ¬ [a, b] <:+: x ++ y := by
  intro x
  induction x with
  | nil =>
    intro y _ hy _ h
    exact hy (h.subset (by simp))
  | cons c x ih =>
    intro y hx hy hb h
    have hx' : ¬ [a, b] <:+: x := fun hh => hx (hh.trans (List.suffix_cons c x).isInfix)
    rw [List.cons_append, List.infix_cons_iff] at h
    rcases h with h | h
    · obtain ⟨t, ht⟩ := h
      simp only [List.cons_append, List.cons.injEq, List.nil_append] at ht
      obtain ⟨rfl, ht⟩ := ht
      cases x with
      | nil =>
        cases y with
        | nil => simp at ht
        | cons e y =>
          simp only [List.nil_append, List.cons.injEq] at ht
          exact hb (by simp [ht.1])
      | cons e x =>
        simp only [List.cons_append, List.cons.injEq] at ht
        obtain ⟨rfl, -⟩ := ht
        exact hx (List.prefix_append [a, b] x).isInfix
    · exact ih y hx' hy hb h

/-! ## Go indexing and slicing -/

theorem goIndex_zero {α : Type} (x : α) (xs : List α) : goIndex (x :: xs) 0 = .ok x := rfl

theorem goIndex_succ {α : Type} (x : α) (xs : List α) (i : Nat) :
    goIndex (x :: xs) (i + 1) = goIndex xs i := rfl

theorem goIndex_split_zero (re : Regexp) (s : List Char) :
    ∃ piece rest, re.Split s = piece :: rest ∧ goIndex (re.Split s) 0 = .ok piece := by
  cases h : re.Split s with
  | nil => exact absurd h (split_ne_nil re s)
  | cons piece rest => exact ⟨piece, rest, rfl, rfl⟩

theorem goSlice_label (n : List Char) :
    goSlice ('[' :: (n ++ [']'])) 1 ((('[' :: (n ++ [']'])).length : Int) - 1) = .ok n := by
  unfold goSlice
  have h1 : ((('[' :: (n ++ [']'])).length : Int) - 1) = ((n.length + 1 : Nat) : Int) := by
    simp
  rw [h1, if_pos (by simp)]
  simp

/-! ## `parseLineIssue` on a line with the WARN label -/

theorem find_flag_true (c : Char) (re : Regexp) (s : List Char) :
    Regexp.Find (.lit c :: re) s =
      match findAt (.lit c :: re) false s with
      | some (_, m, _) => m
      | none => [] := by
  unfold Regexp.Find
  rw [findAt_lit_flag]

theorem parseLineIssue_label (rest : List Char) :
    parseLineIssue ("[WARN] ".toList ++ rest) =
      (do
        let path1 ← goIndex (pathExp.Split rest) 1
        let cd ← parseRight path1
        let path0 ← goIndex (pathExp.Split rest) 0
        let issue ← parseLineCol
          { CheckName := cd.1, Description := cd.2 } (lineColExp.Split path0)
        pure (true, some issue)) := by
  unfold parseLineIssue
  rw [find_warn, split_warn]
  simp only [ne_eq, not_true_eq_false, if_false, goIndex_succ, goIndex_zero]
  rfl

theorem parseLineIssue_split (l r : List Char) (hl : ¬ [':', ' '] <:+: l) :
    parseLineIssue ("[WARN] ".toList ++ (l ++ ':' :: ' ' :: r)) =
      (do
        let path1 ← goIndex (pathExp.Split r) 0
        let cd ← parseRight path1
        let issue ← parseLineCol
          { CheckName := cd.1, Description := cd.2 } (lineColExp.Split l)
        pure (true, some issue)) := by
  rw [parseLineIssue_label]
  have hs : pathExp.Split (l ++ ':' :: ' ' :: r) = l :: pathExp.Split r :=
    split_some ':' [.lit ' '] _ _ _ _ (find_pathExp l r hl)
  rw [hs]
  simp only [goIndex_succ, goIndex_zero]
  rfl

theorem parseRight_error (s : List Char) (e : Failure) (h : parseRight s = .error e) :
    e = .sliceOutOfRange := by
  unfold parseRight at h
  obtain ⟨piece, rest, -, hp⟩ := goIndex_split_zero descExp s
  simp only [hp, bind, Except.bind, pure, Except.pure] at h
  cases hg : goSlice (checkExp.Find s) 1 (((checkExp.Find s).length : Int) - 1) with
  | ok v => rw [hg] at h; cases h
  | error e2 =>
    rw [hg] at h
    simp only [Except.error.injEq] at h
    subst h
    unfold goSlice at hg
    split at hg
    · cases hg
    · cases hg
      rfl

theorem parseRight_label (d n : List Char) (hn : ∀ x ∈ n, isWordChar x = true) :
    ∃ desc, parseRight (d ++ '[' :: (n ++ [']'])) = .ok (n, desc ++ ".".toList) := by
  obtain ⟨piece, rest, -, hp⟩ := goIndex_split_zero descExp (d ++ '[' :: (n ++ [']']))
  refine ⟨piece, ?_⟩
  unfold parseRight
  have hf : checkExp.Find (d ++ '[' :: (n ++ [']'])) = '[' :: (n ++ [']']) := by
    rw [show checkExp.Find (d ++ '[' :: (n ++ [']'])) =
      (match findAt checkExp false (d ++ '[' :: (n ++ [']'])) with
        | some (_, m, _) => m
        | none => []) from find_flag_true '[' _ _]
    rw [find_checkExp n hn d]
  simp only [hf, goSlice_label, hp, bind, Except.bind, pure, Except.pure]

/-! ## The left part: path, line and column -/

theorem parseLineCol_one (issue : Issue) (p : List Char) :
    parseLineCol issue [p] = .ok { issue with FilePath := p } := rfl

theorem parseLineCol_two (issue : Issue) (p seg : List Char) (i : Int)
    (h : Atoi seg = some i) :
    parseLineCol issue [p, seg] = .ok { issue with FilePath := p, LineNumber := i } := by
  simp [parseLineCol, goIndex, bind, Except.bind, pure, Except.pure, h]

theorem parseLineCol_three (issue : Issue) (p seg1 seg2 : List Char) (more : List (List Char))
    (i j : Int) (h1 : Atoi seg1 = some i) (h2 : Atoi seg2 = some j) :
    parseLineCol issue (p :: seg1 :: seg2 :: more) =
      .ok { issue with FilePath := p, LineNumber := i, ColumnNumber := j } := by
  simp [parseLineCol, goIndex, bind, Except.bind, pure, Except.pure, h1, h2]

theorem split_lineCol_last (x : List Char) (hx : ':' ∉ x) : lineColExp.Split x = [x] :=
  split_none _ _ _ (find_lineColExp_none x hx)

theorem split_lineCol_cons (x y : List Char) (hx : ':' ∉ x) :
    lineColExp.Split (x ++ ':' :: y) = x :: lineColExp.Split y :=
  split_some _ _ _ _ _ _ (find_lineColExp x y hx)

theorem toDigits_no_colon (n : Nat) : ':' ∉ Nat.toDigits 10 n := fun h =>
  (isDigit_not_special _ (toDigits_digits n _ h)).2.2.1 rfl

theorem toDigits_head (n : Nat) : ∃ d ds, Nat.toDigits 10 n = d :: ds ∧ d ≠ ' ' := by
  cases hs : Nat.toDigits 10 n with
  | nil => exact absurd hs (toDigits_ne_nil n)
  | cons d ds =>
    exact ⟨d, ds, rfl, (isDigit_not_special d (toDigits_digits n d (by simp [hs]))).2.2.2⟩

theorem find_checkExp_eq (s : List Char) :
    checkExp.Find s =
      match findAt checkExp false s with
      | some (_, m, _) => m
      | none => [] :=
  find_flag_true '[' _ s

theorem split_descExp_cons (x y : List Char) (hx : ¬ ['.', ' ', '['] <:+: x) :
    descExp.Split (x ++ '.' :: ' ' :: '[' :: y) = x :: descExp.Split y :=
  split_some _ _ _ _ _ _ (find_descExp x y hx)

theorem split_descExp_last (x : List Char) (hx : ¬ ['.', ' ', '['] <:+: x) :
    descExp.Split x = [x] :=
  split_none _ _ _ (find_descExp_none x hx)

theorem split_pathExp_last (x : List Char) (hx : ¬ [':', ' '] <:+: x) :
    pathExp.Split x = [x] :=
  split_none _ _ _ (find_pathExp_none x hx)

theorem leftPart_no_colonSpace (p : List Char) (l c : Nat) (hp : ':' ∉ p) :
    ¬ [':', ' '] <:+: p ++ ':' :: (Nat.toDigits 10 l ++ ':' :: Nat.toDigits 10 c) := by
  intro h
  have h1 := infix_colonSpace_skip _ _ hp h
  obtain ⟨d, ds, hl, hd⟩ := toDigits_head l
  have hlc := toDigits_no_colon l
  rw [hl] at h1 hlc
  rw [List.cons_append] at h1
  have h2 := infix_colonSpace_colon d _ hd h1
  rw [← List.cons_append] at h2
  have h3 := infix_colonSpace_skip _ _ hlc h2
  obtain ⟨e, es, hc, he⟩ := toDigits_head c
  have hcc := toDigits_no_colon c
  rw [hc] at h3 hcc
  have h4 := infix_colonSpace_colon e _ he h3
  have h5 := infix_colonSpace_skip (e :: es) [] hcc (by simpa using h4)
  simp at h5

theorem rightPart_fields (d n : List Char) (hd1 : ¬ [':', ' '] <:+: d)
    (hd2 : ¬ ['.', ' ', '['] <:+: d) (hn : ∀ x ∈ n, isWordChar x = true) :
    pathExp.Split (d ++ '.' :: ' ' :: '[' :: (n ++ [']'])) = [d ++ '.' :: ' ' :: '[' :: (n ++ [']'])]
    ∧ checkExp.Find (d ++ '.' :: ' ' :: '[' :: (n ++ [']'])) = '[' :: (n ++ [']'])
    ∧ goIndex (descExp.Split (d ++ '.' :: ' ' :: '[' :: (n ++ [']']))) 0 = .ok d := by
  refine ⟨?_, ?_, ?_⟩
  · apply split_pathExp_last
    have hcolon : ':' ∉ '.' :: ' ' :: '[' :: (n ++ [']']) := by
      intro h
      simp only [List.mem_cons, List.mem_append, List.mem_singleton] at h
      rcases h with h | h | h | h | h
      · exact absurd h (by decide)
      · exact absurd h (by decide)
      · exact absurd h (by decide)
      · exact absurd (hn _ h) (by decide)
      · exact absurd h (by decide)
    exact not_infix_append_tail ':' ' ' d _ hd1 hcolon (by simp)
  · rw [find_checkExp_eq]
    have := find_checkExp n hn (d ++ ['.', ' '])
    simp only [List.append_assoc, List.cons_append, List.nil_append] at this
    rw [this]
  · rw [split_descExp_cons d (n ++ [']']) hd2]
    rfl

/-- Claim C1. A line of the shape
`[WARN] p:l:c: D. [n]`, where the path `p` has no colon, `l` and `c` are the
decimal numerals of natural numbers that fit an `int`, the description `D`
contains neither `": "` nor `". ["` and the check name `n` is made of word
characters, is recognised, and the issue carries `FilePath = p`,
`LineNumber = l`, `ColumnNumber = c`, `CheckName = n` and
`Description = D ++ "."`. -/
theorem parseLineIssue_wellFormed (p D n : List Char) (l c : Nat)
    (hp : ':' ∉ p) (hl : (l : Int) ≤ maxInt) (hc : (c : Int) ≤ maxInt)
    (hD1 : ¬ ": ".toList <:+: D) (hD2 : ¬ ". [".toList <:+: D)
    (hn : ∀ x ∈ n, isWordChar x = true) :
    parseLineIssue ("[WARN] ".toList ++ p ++ ":".toList ++ Nat.toDigits 10 l ++ ":".toList
        ++ Nat.toDigits 10 c ++ ": ".toList ++ D ++ ". [".toList ++ n ++ "]".toList) =
      .ok (true, some
        { FilePath := p, LineNumber := (l : Int), ColumnNumber := (c : Int),
          CheckName := n, Description := D ++ ".".toList }) := by
  have e1 : ":".toList = [':'] := rfl
  have e2 : ": ".toList = [':', ' '] := rfl
  have e3 : ". [".toList = ['.', ' ', '['] := rfl
  have e4 : "]".toList = [']'] := rfl
  rw [e2] at hD1
  rw [e3] at hD2
  have hline : "[WARN] ".toList ++ p ++ ":".toList ++ Nat.toDigits 10 l ++ ":".toList
        ++ Nat.toDigits 10 c ++ ": ".toList ++ D ++ ". [".toList ++ n ++ "]".toList =
      "[WARN] ".toList ++ ((p ++ ':' :: (Nat.toDigits 10 l ++ ':' :: Nat.toDigits 10 c))
        ++ ':' :: ' ' :: (D ++ '.' :: ' ' :: '[' :: (n ++ [']']))) := by
    simp [e1, e2, e3, e4]
  rw [hline, parseLineIssue_split _ _ (leftPart_no_colonSpace p l c hp)]
  obtain ⟨h1, h2, h3⟩ := rightPart_fields D n hD1 hD2 hn
  rw [h1]
  simp only [goIndex_zero, parseRight, Except.bind, bind, h2, goSlice_label, h3, pure,
    Except.pure]
  rw [split_lineCol_cons p _ hp, split_lineCol_cons _ _ (toDigits_no_colon l),
    split_lineCol_last _ (toDigits_no_colon c)]
  rw [parseLineCol_three _ _ _ _ _ _ _ (Atoi_toDigits l hl) (Atoi_toDigits c hc)]

/-- Witness of claim C1: the example line of the report format. -/
theorem parseLineIssue_wellFormed_witness :
    parseLineIssue
        "[WARN] /tmp/build/src/foo.go:12:5: Missing doc comment. [MissingComment]".toList =
      .ok (true, some
        { FilePath := "/tmp/build/src/foo.go".toList, LineNumber := 12, ColumnNumber := 5,
          CheckName := "MissingComment".toList,
          Description := "Missing doc comment.".toList }) :=
  parseLineIssue_wellFormed "/tmp/build/src/foo.go".toList "Missing doc comment".toList
    "MissingComment".toList 12 5 (by decide) (by decide) (by decide) (by decide) (by decide)
    (by decide)

/-- Claim C2. A line that does not begin with the seven characters `[WARN] ` is
not recognised: `parseLineIssue` returns `ok = false` and no issue, and it
returns (no fatal error, no panic). -/
theorem parseLineIssue_unlabelled (line : List Char) (h : ¬ "[WARN] ".toList <+: line) :
    parseLineIssue line = .ok (false, none) := by
  unfold parseLineIssue
  rw [if_pos (fun hf => h (find_warn_starts line hf))]

/-- Witness of claim C2: a line with another label, a line without label, a
label that is not followed by a space, and the empty line. -/
theorem parseLineIssue_unlabelled_witness :
    parseLineIssue "[ERROR] /a.go:1:2: Bad. [X]".toList = .ok (false, none)
    ∧ parseLineIssue "/a.go:1:2: Bad. [X]".toList = .ok (false, none)
    ∧ parseLineIssue "[WARN]/a.go:1:2: Bad. [X]".toList = .ok (false, none)
    ∧ parseLineIssue [] = .ok (false, none) :=
  ⟨parseLineIssue_unlabelled _ (by decide), parseLineIssue_unlabelled _ (by decide),
    parseLineIssue_unlabelled _ (by decide), parseLineIssue_unlabelled _ (by decide)⟩

/-! ## What `strconv.Atoi` accepts -/

theorem digitsValue_digits :
    ∀ (ds : List Char) (acc : Nat), (∀ c ∈ ds, c.isDigit = true) →
      digitsValue ds acc =
        some (ds.foldl (fun a c => a * 10 + (c.toNat - '0'.toNat)) acc) := by
  intro ds
  induction ds with
  | nil => intro acc _; rfl
  | cons c cs ih =>
    intro acc h
    have hc : c.isDigit = true := h c (by simp)
    simp only [digitsValue, hc, if_true, List.foldl_cons]
    exact ih _ (fun x hx => h x (List.mem_cons_of_mem _ hx))

theorem digitsValue_some :
    ∀ (ds : List Char) (acc v : Nat), digitsValue ds acc = some v →
      (∀ c ∈ ds, c.isDigit = true) := by
  intro ds
  induction ds with
  | nil => intro acc v _ c hc; simp at hc
  | cons c cs ih =>
    intro acc v h x hx
    simp only [digitsValue] at h
    split at h
    · next hc =>
      rcases List.mem_cons.mp hx with rfl | hx
      · exact hc
      · exact ih _ _ h x hx
    · cases h

theorem digitsValue_numeral (ds : List Char) (h : ∀ c ∈ ds, c.isDigit = true) :
    digitsValue ds 0 = some (numeralValue ds) :=
  digitsValue_digits ds 0 h

theorem Atoi_of_numeral (s : List Char) (v : Int) (h : IsIntNumeral s v)
    (h0 : minInt ≤ v) (h1 : v ≤ maxInt) : Atoi s = some v := by
  obtain ⟨ds, hne, hdig, hcase⟩ := h
  have hv := digitsValue_numeral ds hdig
  unfold minInt at h0
  unfold maxInt at h1
  cases hds : ds with
  | nil => exact absurd hds hne
  | cons c cs =>
    have hc : c.isDigit = true := hdig c (by simp [hds])
    obtain ⟨hm, hp, -, -⟩ := isDigit_not_special c hc
    rw [hds] at hv hcase
    rcases hcase with ⟨hs | hs, hval⟩ | ⟨hs, hval⟩
    · subst hs
      simp only [Atoi, List.head?_cons, beq_iff_eq, Option.some.injEq, hm, hp, or_self, if_false,
        List.isEmpty_cons, hv, Bool.false_eq_true]
      rw [if_neg (by omega), hval]
    · subst hs
      have e1 : ('+' : Char) ≠ '-' := by decide
      simp only [Atoi, List.head?_cons, beq_iff_eq, Option.some.injEq, e1, or_true, if_true,
        List.tail_cons, List.isEmpty_cons, hv, Bool.false_eq_true, if_false]
      rw [if_neg (by omega), hval]
    · subst hs
      simp only [Atoi, List.head?_cons, beq_iff_eq, Option.some.injEq, true_or, if_true,
        List.tail_cons, List.isEmpty_cons, hv, Bool.false_eq_true, if_false]
      rw [if_neg (by omega), hval]

theorem Atoi_numeral (s : List Char) (v : Int) (h : Atoi s = some v) :
    IsIntNumeral s v ∧ minInt ≤ v ∧ v ≤ maxInt := by
  unfold minInt maxInt
  cases s with
  | nil => simp [Atoi] at h
  | cons c cs =>
    by_cases hm : c = '-'
    · subst hm
      simp only [Atoi, List.head?_cons, beq_iff_eq, Option.some.injEq, true_or, if_true,
        List.tail_cons] at h
      split at h
      · cases h
      · next hne =>
        cases hd : digitsValue cs 0 with
        | none => rw [hd] at h; cases h
        | some un =>
          rw [hd] at h
          simp only at h
          split at h
          · cases h
          · next hr =>
            have hdig := digitsValue_some cs 0 un hd
            have hun : un = numeralValue cs := by
              have := digitsValue_numeral cs hdig
              rw [hd] at this
              exact Option.some.inj this
            simp only [Option.some.injEq] at h
            refine ⟨⟨cs, ?_, hdig, Or.inr ⟨rfl, ?_⟩⟩, ?_, ?_⟩
            · intro hnil; subst hnil; simp at hne
            · rw [← h, hun]
            · omega
            · omega
    · by_cases hp : c = '+'
      · subst hp
        simp only [Atoi, List.head?_cons, beq_iff_eq, Option.some.injEq, hm, or_true, if_true,
          List.tail_cons, Bool.false_eq_true, if_false] at h
        split at h
        · cases h
        · next hne =>
          cases hd : digitsValue cs 0 with
          | none => rw [hd] at h; cases h
          | some un =>
            rw [hd] at h
            simp only at h
            split at h
            · cases h
            · next hr =>
              have hdig := digitsValue_some cs 0 un hd
              have hun : un = numeralValue cs := by
                have := digitsValue_numeral cs hdig
                rw [hd] at this
                exact Option.some.inj this
              simp only [Option.some.injEq] at h
              refine ⟨⟨cs, ?_, hdig, Or.inl ⟨Or.inr rfl, ?_⟩⟩, ?_, ?_⟩
              · intro hnil; subst hnil; simp at hne
              · rw [← h, hun]
              · omega
              · omega
      · simp only [Atoi, List.head?_cons, beq_iff_eq, Option.some.injEq, hm, hp, or_self,
          if_false, List.isEmpty_cons, Bool.false_eq_true] at h
        cases hd : digitsValue (c :: cs) 0 with
        | none => rw [hd] at h; cases h
        | some un =>
          rw [hd] at h
          simp only at h
          split at h
          · cases h
          · next hr =>
            have hdig := digitsValue_some (c :: cs) 0 un hd
            have hun : un = numeralValue (c :: cs) := by
              have := digitsValue_numeral (c :: cs) hdig
              rw [hd] at this
              exact Option.some.inj this
            simp only [Option.some.injEq] at h
            refine ⟨⟨c :: cs, by simp, hdig, Or.inl ⟨Or.inl rfl, ?_⟩⟩, ?_, ?_⟩
            · rw [← h, hun]
            · omega
            · omega

theorem digits_not_signed (ds rest : List Char) (c : Char) (h : ∀ x ∈ ds, x.isDigit = true)
    (hc : c = '+' ∨ c = '-') : ds ≠ c :: rest := by
  rintro rfl
  have := isDigit_not_special c (h c (by simp))
  rcases hc with rfl | rfl
  · exact this.2.1 rfl
  · exact this.1 rfl

theorem numeral_unique (s : List Char) (v w : Int) (hv : IsIntNumeral s v)
    (hw : IsIntNumeral s w) : v = w := by
  obtain ⟨ds, -, hds, hcase⟩ := hv
  obtain ⟨es, -, hes, hcase2⟩ := hw
  rcases hcase with ⟨h1 | h1, rfl⟩ | ⟨h1, rfl⟩ <;>
    rcases hcase2 with ⟨h2 | h2, rfl⟩ | ⟨h2, rfl⟩
  · rw [h1] at h2; rw [h2]
  · rw [h1] at h2; exact absurd h2 (digits_not_signed ds es '+' hds (Or.inl rfl))
  · rw [h1] at h2; exact absurd h2 (digits_not_signed ds es '-' hds (Or.inr rfl))
  · rw [h1] at h2; exact absurd h2.symm (digits_not_signed es ds '+' hes (Or.inl rfl))
  · rw [h1] at h2; rw [(List.cons.inj h2).2]
  · rw [h1] at h2; exact absurd (List.cons.inj h2).1 (by decide)
  · rw [h1] at h2; exact absurd h2.symm (digits_not_signed es ds '-' hes (Or.inr rfl))
  · rw [h1] at h2; exact absurd (List.cons.inj h2).1 (by decide)
  · rw [h1] at h2; rw [(List.cons.inj h2).2]

theorem numeral_chars (s : List Char) (v : Int) (h : IsIntNumeral s v) :
    ':' ∉ s ∧ ∃ d rest, s = d :: rest ∧ d ≠ ' ' := by
  obtain ⟨ds, hne, hds, hcase⟩ := h
  have hcolon : ':' ∉ ds := fun hm => (isDigit_not_special _ (hds _ hm)).2.2.1 rfl
  have hs : s = ds ∨ s = '+' :: ds ∨ s = '-' :: ds := by
    rcases hcase with ⟨h1 | h1, -⟩ | ⟨h1, -⟩
    · exact Or.inl h1
    · exact Or.inr (Or.inl h1)
    · exact Or.inr (Or.inr h1)
  rcases hs with rfl | rfl | rfl
  · refine ⟨hcolon, ?_⟩
    cases s with
    | nil => exact absurd rfl hne
    | cons d rest => exact ⟨d, rest, rfl, (isDigit_not_special d (hds d (by simp))).2.2.2⟩
  · refine ⟨?_, '+', ds, rfl, by decide⟩
    intro hm
    rcases List.mem_cons.mp hm with h | h
    · exact absurd h (by decide)
    · exact hcolon h
  · refine ⟨?_, '-', ds, rfl, by decide⟩
    intro hm
    rcases List.mem_cons.mp hm with h | h
    · exact absurd h (by decide)
    · exact hcolon h

theorem no_colonSpace_of_no_colon (p : List Char) (hp : ':' ∉ p) : ¬ [':', ' '] <:+: p :=
  fun h => hp (h.subset (by simp))

theorem leftPart_one_no_colonSpace (p seg : List Char) (v : Int) (hp : ':' ∉ p)
    (hseg : IsIntNumeral seg v) : ¬ [':', ' '] <:+: p ++ ':' :: seg := by
  intro h
  have h1 := infix_colonSpace_skip _ _ hp h
  obtain ⟨hcolon, d, ds, hl, hd⟩ := numeral_chars seg v hseg
  rw [hl] at h1 hcolon
  have h2 := infix_colonSpace_colon d _ hd h1
  exact no_colonSpace_of_no_colon _ hcolon h2

/-- Claim C3. Fewer segments in the left part are not an error.  For a line
`[WARN] p: R` whose left part `p` has no colon, every recognised line gives
`FilePath = p`, `LineNumber = 0` and `ColumnNumber = 0`; for a line
`[WARN] p:seg: R` where `seg` is a decimal integer numeral of value `v`, every
recognised line gives `FilePath = p`, `LineNumber = v` and `ColumnNumber = 0`.
Neither line ends in the fatal error of a number conversion (the second one
when `v` fits an `int`), and both are recognised when `R` is a text without
`": "` that ends with a bracketed check name. -/
theorem parseLineIssue_fewSegments (p R seg : List Char) (v : Int) (hp : ':' ∉ p)
    (hseg : IsIntNumeral seg v) :
    (∀ iss, parseLineIssue ("[WARN] ".toList ++ p ++ ": ".toList ++ R) = .ok (true, some iss) →
        iss.FilePath = p ∧ iss.LineNumber = 0 ∧ iss.ColumnNumber = 0)
    ∧ (∀ iss, parseLineIssue ("[WARN] ".toList ++ p ++ ":".toList ++ seg
          ++ ": ".toList ++ R) = .ok (true, some iss) →
        iss.FilePath = p ∧ iss.LineNumber = v ∧ iss.ColumnNumber = 0)
    ∧ (∀ e, parseLineIssue ("[WARN] ".toList ++ p ++ ": ".toList ++ R) = .error e →
        e ≠ .fatalLineNumber ∧ e ≠ .fatalColumnNumber)
    ∧ (minInt ≤ v → v ≤ maxInt →
        ∀ e, parseLineIssue ("[WARN] ".toList ++ p ++ ":".toList ++ seg
          ++ ": ".toList ++ R) = .error e → e ≠ .fatalLineNumber ∧ e ≠ .fatalColumnNumber)
    ∧ (∀ D n, R = D ++ "[".toList ++ n ++ "]".toList → ¬ ": ".toList <:+: R →
        (∀ x ∈ n, isWordChar x = true) →
        (∃ iss, parseLineIssue ("[WARN] ".toList ++ p ++ ": ".toList ++ R) =
          .ok (true, some iss))
        ∧ (minInt ≤ v → v ≤ maxInt →
          ∃ iss, parseLineIssue ("[WARN] ".toList ++ p ++ ":".toList ++ seg
            ++ ": ".toList ++ R) = .ok (true, some iss))) := by
  have e1 : ":".toList = [':'] := rfl
  have e2 : ": ".toList = [':', ' '] := rfl
  have e3 : "[".toList = ['['] := rfl
  have e4 : "]".toList = [']'] := rfl
  have hline0 : "[WARN] ".toList ++ p ++ ": ".toList ++ R =
      "[WARN] ".toList ++ (p ++ ':' :: ' ' :: R) := by simp [e2]
  have hline1 : "[WARN] ".toList ++ p ++ ":".toList ++ seg ++ ": ".toList ++ R =
      "[WARN] ".toList ++ ((p ++ ':' :: seg) ++ ':' :: ' ' :: R) := by
    simp [e1, e2]
  have h0 := parseLineIssue_split p R (no_colonSpace_of_no_colon p hp)
  have h1 := parseLineIssue_split _ R (leftPart_one_no_colonSpace p seg v hp hseg)
  rw [split_lineCol_last p hp] at h0
  rw [split_lineCol_cons p _ hp, split_lineCol_last _ (numeral_chars seg v hseg).1] at h1
  rw [hline0, hline1, h0, h1]
  obtain ⟨path1, rest, hsplit, hidx⟩ := goIndex_split_zero pathExp R
  simp only [hidx, bind, Except.bind, pure, Except.pure]
  refine ⟨?_, ?_, ?_, ?_, ?_⟩
  · intro iss h
    cases hr : parseRight path1 with
    | error e => rw [hr] at h; cases h
    | ok cd =>
      rw [hr] at h
      simp only [parseLineCol_one, Except.ok.injEq, Prod.mk.injEq, Option.some.injEq,
        true_and] at h
      subst h
      exact ⟨rfl, rfl, rfl⟩
  · intro iss h
    cases hr : parseRight path1 with
    | error e => rw [hr] at h; cases h
    | ok cd =>
      rw [hr] at h
      simp only at h
      cases ha : Atoi seg with
      | none =>
        simp [parseLineCol, goIndex, bind, Except.bind, pure, Except.pure, ha] at h
      | some i =>
        rw [parseLineCol_two _ _ _ _ ha] at h
        simp only [Except.ok.injEq, Prod.mk.injEq, Option.some.injEq, true_and] at h
        subst h
        exact ⟨rfl, numeral_unique seg i v (Atoi_numeral seg i ha).1 hseg, rfl⟩
  · intro e h
    cases hr : parseRight path1 with
    | error e2 =>
      rw [hr] at h
      simp only [Except.error.injEq] at h
      subst h
      rw [parseRight_error _ _ hr]
      exact ⟨by decide, by decide⟩
    | ok cd => rw [hr] at h; simp [parseLineCol_one] at h
  · intro hv0 hv1 e h
    cases hr : parseRight path1 with
    | error e2 =>
      rw [hr] at h
      simp only [Except.error.injEq] at h
      subst h
      rw [parseRight_error _ _ hr]
      exact ⟨by decide, by decide⟩
    | ok cd =>
      rw [hr] at h
      simp [parseLineCol_two _ _ _ _ (Atoi_of_numeral seg v hseg hv0 hv1)] at h
  · intro D n hR hno hn
    rw [e2] at hno
    have hp1 : path1 = R := by
      have := split_pathExp_last R hno
      rw [this] at hsplit
      exact (List.cons.inj hsplit).1.symm
    obtain ⟨desc, hd⟩ := parseRight_label D n hn
    have hR' : R = D ++ '[' :: (n ++ [']']) := by rw [hR]; simp [e3, e4]
    rw [hp1, hR', hd]
    refine ⟨?_, ?_⟩
    · simp only [parseLineCol_one]
      exact ⟨_, rfl⟩
    · intro hv0 hv1
      simp only [parseLineCol_two _ _ _ _ (Atoi_of_numeral seg v hseg hv0 hv1)]
      exact ⟨_, rfl⟩

/-- Witness of claim C3: a left part that is only a path, and a left part with
a path and a line number. -/
theorem parseLineIssue_fewSegments_witness :
    parseLineIssue "[WARN] /tmp/a.go: Bad name. [Naming]".toList =
        .ok (true, some
          { FilePath := "/tmp/a.go".toList, LineNumber := 0, ColumnNumber := 0,
            CheckName := "Naming".toList, Description := "Bad name.".toList })
    ∧ parseLineIssue "[WARN] /tmp/a.go:42: Bad name. [Naming]".toList =
        .ok (true, some
          { FilePath := "/tmp/a.go".toList, LineNumber := 42, ColumnNumber := 0,
            CheckName := "Naming".toList, Description := "Bad name.".toList })
    ∧ (∀ iss, parseLineIssue "[WARN] /tmp/a.go: Bad name. [Naming]".toList =
          .ok (true, some iss) →
        iss.FilePath = "/tmp/a.go".toList ∧ iss.LineNumber = 0 ∧ iss.ColumnNumber = 0)
    ∧ (∀ iss, parseLineIssue "[WARN] /tmp/a.go:42: Bad name. [Naming]".toList =
          .ok (true, some iss) →
        iss.FilePath = "/tmp/a.go".toList ∧ iss.LineNumber = 42 ∧ iss.ColumnNumber = 0) :=
  ⟨rfl, rfl,
    (parseLineIssue_fewSegments "/tmp/a.go".toList "Bad name. [Naming]".toList "42".toList 42
      (by decide)
      ⟨"42".toList, by decide, by decide, Or.inl ⟨Or.inl rfl, by decide⟩⟩).1,
    (parseLineIssue_fewSegments "/tmp/a.go".toList "Bad name. [Naming]".toList "42".toList 42
      (by decide)
      ⟨"42".toList, by decide, by decide, Or.inl ⟨Or.inl rfl, by decide⟩⟩).2.1⟩

/-! ## The base path: a second occurrence -/

/-- Claim C4, the code at the failing input.  With base path `/tmp/build` and
the parsed path `/tmp/build/src/tmp/build/x.go`, in which the base path occurs
first at the very beginning, the suffix after that occurrence is
`/src/tmp/build/x.go`, but `GetIssues` returns the issue with
`FilePath = "/src"`: the text between the first and the second occurrence of
the base path. -/
theorem GetIssues_base_twice :
    GetIssues (fun _ => none) 3
        "[WARN] /tmp/build/src/tmp/build/x.go:1:1: d. [C]".toList "c0ffee".toList
        "/tmp/build".toList 7 =
      .ok [{ ReportID := 7, FilePath := "/src".toList, LineNumber := 1, ColumnNumber := 1,
             CheckName := "C".toList, Description := "d.".toList, SourceSnippet := [] }]
    ∧ parseLineIssue "[WARN] /tmp/build/src/tmp/build/x.go:1:1: d. [C]".toList =
        .ok (true, some
          { FilePath := "/tmp/build".toList ++ "/src/tmp/build/x.go".toList, LineNumber := 1,
            ColumnNumber := 1, CheckName := "C".toList, Description := "d.".toList }) :=
  ⟨rfl, rfl⟩

/-! ## `getSnippet` -/

theorem wrapInt_eq (x : Int) (h0 : minInt ≤ x) (h1 : x ≤ maxInt) : wrapInt x = x := by
  unfold wrapInt
  unfold minInt at h0
  unfold maxInt at h1
  omega

theorem snippetLoop_eq (startLine line : Int) :
    ∀ (lines : List (List Char)) (i : Nat) (acc : List Char),
      snippetLoop startLine line lines i acc =
        acc ++ (((lines.enumFrom i).filter (inWindow startLine line)).map
          (renderLine line)).flatten := by
  intro lines
  induction lines with
  | nil => intro i acc; simp [snippetLoop]
  | cons l rest ih =>
    intro i acc
    simp only [snippetLoop, List.enumFrom_cons]
    by_cases hw : startLine ≤ (i : Int) + 1 ∧ (i : Int) + 1 ≤ line
    · have hin : inWindow startLine line (i, l) = true := by simp [inWindow, hw]
      rw [List.filter_cons_of_pos hin]
      by_cases ht : (i : Int) + 1 = line
      · have : ¬ ((i : Int) + 1 ≠ line) := by simp [ht]
        rw [if_pos (by exact ⟨hw.1, hw.2⟩), if_neg this, ih]
        simp [renderLine, ht]
      · rw [if_pos (by exact ⟨hw.1, hw.2⟩), if_pos ht, ih]
        simp [renderLine, ht]
    · have hin : ¬ inWindow startLine line (i, l) = true := by simp [inWindow]; simpa using hw
      rw [List.filter_cons_of_neg hin, if_neg (by simpa using hw), ih]

theorem window_past (startLine line : Int) :
    ∀ (lines : List (List Char)) (i : Nat), line < (i : Int) + 1 →
      (lines.enumFrom i).filter (inWindow startLine line) = [] := by
  intro lines
  induction lines with
  | nil => intro i _; rfl
  | cons l rest ih =>
    intro i h
    have hin : ¬ inWindow startLine line (i, l) = true := by
      simp only [inWindow, decide_eq_true_eq]; omega
    rw [List.enumFrom_cons, List.filter_cons_of_neg hin]
    exact ih (i + 1) (by push_cast; omega)

theorem intercalate_cons_cons (sep x y : List Char) (ys : List (List Char)) :
    sep.intercalate (x :: y :: ys) = x ++ sep ++ sep.intercalate (y :: ys) := by
  simp [List.intercalate, List.intersperse]

theorem window_join (startLine line : Int) :
    ∀ (lines : List (List Char)) (i : Nat), line ≤ (i : Int) + lines.length →
      (((lines.enumFrom i).filter (inWindow startLine line)).map (renderLine line)).flatten =
        "\n".toList.intercalate
          (((lines.enumFrom i).filter (inWindow startLine line)).map Prod.snd) := by
  intro lines
  induction lines with
  | nil => intro i _; rfl
  | cons l rest ih =>
    intro i h
    have hlen : line ≤ ((i + 1 : Nat) : Int) + rest.length := by
      simp only [List.length_cons] at h; push_cast at h ⊢; omega
    rw [List.enumFrom_cons]
    by_cases hw : startLine ≤ (i : Int) + 1 ∧ (i : Int) + 1 ≤ line
    · have hin : inWindow startLine line (i, l) = true := by simp [inWindow, hw]
      rw [List.filter_cons_of_pos hin]
      by_cases ht : (i : Int) + 1 = line
      · rw [window_past startLine line rest (i + 1) (by push_cast; omega)]
        simp [renderLine, ht, List.intercalate]
      · cases rest with
        | nil => simp only [List.length_nil] at hlen; push_cast at hlen; omega
        | cons l2 rest2 =>
          have hin2 : inWindow startLine line (i + 1, l2) = true := by
            simp only [inWindow, decide_eq_true_eq]; push_cast; omega
          have ih' := ih (i + 1) hlen
          rw [List.enumFrom_cons, List.filter_cons_of_pos hin2] at ih' ⊢
          simp only [List.map_cons, List.flatten_cons] at ih' ⊢
          rw [intercalate_cons_cons, ih']
          simp [renderLine, ht]
    · have hin : ¬ inWindow startLine line (i, l) = true := by simp [inWindow]; simpa using hw
      rw [List.filter_cons_of_neg hin]
      exact ih (i + 1) hlen

theorem window_newlines (startLine line : Int) (lines : List (List Char)) (i : Nat)
    (h : (i : Int) + lines.length < line) :
    ((lines.enumFrom i).filter (inWindow startLine line)).map (renderLine line) =
      ((lines.enumFrom i).filter (inWindow startLine line)).map
        (fun il => il.2 ++ "\n".toList) := by
  apply List.map_congr_left
  intro il hil
  have hmem := (List.mem_filter.mp hil).1
  have hlt := List.fst_lt_add_of_mem_enumFrom hmem
  have : ¬ ((il.1 : Int) + 1 = line) := by omega
  simp [renderLine, this]

/-! ## The snippet window -/

theorem getSnippet_readable (fs : List Char → Option (List Char)) (k : Int)
    (path file : List Char) (line : Int) (hf : fs path = some file)
    (hov : line - k ≤ maxInt) :
    getSnippet fs k path line 0 =
      snippetLoop (if line < k then line else line - k) line
        (stringsSplit file "\n".toList) 0 [] := by
  unfold getSnippet
  rw [hf]
  simp only [ne_eq, not_true_eq_false, if_false]
  by_cases h : line < k
  · simp only [if_pos h]
  · simp only [if_neg h]
    rw [wrapInt_eq _ (by unfold minInt; omega) hov]

/-- Claim C5, amended.  For a readable file, column 0 and a window start
computed without overflow, `getSnippet` returns, in file order, the lines
whose 1-based index lies in `[startLine, line]`, each followed by a newline
except the line whose index is `line` itself.  Hence, when the target line is
not past the end of the file, the result is those lines joined by single
newlines, with no newline at the end; when the target line is past the end of
the file, every included line is followed by a newline. -/
theorem getSnippet_window (fs : List Char → Option (List Char)) (k : Int)
    (path file : List Char) (line : Int) (hf : fs path = some file)
    (hov : line - k ≤ maxInt) :
    getSnippet fs k path line 0 =
        ((((stringsSplit file "\n".toList).enumFrom 0).filter
          (inWindow (if line < k then line else line - k) line)).map (renderLine line)).flatten
    ∧ (line ≤ ((stringsSplit file "\n".toList).length : Int) →
        getSnippet fs k path line 0 =
          "\n".toList.intercalate
            ((((stringsSplit file "\n".toList).enumFrom 0).filter
              (inWindow (if line < k then line else line - k) line)).map Prod.snd))
    ∧ (((stringsSplit file "\n".toList).length : Int) < line →
        getSnippet fs k path line 0 =
          ((((stringsSplit file "\n".toList).enumFrom 0).filter
            (inWindow (if line < k then line else line - k) line)).map
              (fun il => il.2 ++ "\n".toList)).flatten) := by
  rw [getSnippet_readable fs k path file line hf hov, snippetLoop_eq]
  simp only [List.nil_append]
  refine ⟨trivial, ?_, ?_⟩
  · intro h
    exact window_join _ line _ 0 (by simpa using h)
  · intro h
    rw [window_newlines _ line _ 0 (by simpa using h)]

/-- Witness of claim C5, amended: a four-line file, two lines of context and
target line 3 give lines 1 to 3 joined by newlines. -/
theorem getSnippet_window_witness :
    getSnippet (fun _ => some "a\nb\nc\nd".toList) 2 "f".toList 3 0 = "a\nb\nc".toList
    ∧ getSnippet (fun _ => some "a\nb\nc\nd".toList) 2 "f".toList 3 0 =
        ((((stringsSplit "a\nb\nc\nd".toList "\n".toList).enumFrom 0).filter
          (inWindow (if (3 : Int) < 2 then 3 else 3 - 2) 3)).map (renderLine 3)).flatten :=
  ⟨by decide,
    (getSnippet_window (fun _ => some "a\nb\nc\nd".toList) 2 "f".toList "a\nb\nc\nd".toList 3
      rfl (by decide)).1⟩

/-- Counterexample to claim C5 as stated: with the two-line file `"a\nb"`, one
line of context and target line 3 (past the end of the file) the window is
`[2, 3]`, the only included line is `"b"`, and the result is `"b\n"`: there is
a newline after the last included line. -/
theorem getSnippet_trailing_newline :
    getSnippet (fun _ => some "a\nb".toList) 1 "f".toList 3 0 = "b\n".toList
    ∧ getSnippet (fun _ => some "a\nb".toList) 1 "f".toList 3 0 ≠
        "\n".toList.intercalate ["b".toList] := by
  decide

theorem snippetLoop_past (startLine line : Int) (lines : List (List Char)) (i : Nat)
    (acc : List Char) (h : line < (i : Int) + 1) :
    snippetLoop startLine line lines i acc = acc := by
  rw [snippetLoop_eq, window_past startLine line lines i h]
  simp

theorem snippetLoop_single (t : Nat) :
    ∀ (lines : List (List Char)) (i : Nat) (acc : List Char), i + 1 ≤ t →
      t ≤ i + lines.length →
      ∃ l, lines[t - 1 - i]? = some l ∧ snippetLoop (t : Int) (t : Int) lines i acc = acc ++ l := by
  intro lines
  induction lines with
  | nil => intro i acc h1 h2; simp only [List.length_nil] at h2; omega
  | cons l rest ih =>
    intro i acc h1 h2
    by_cases ht : i + 1 = t
    · refine ⟨l, ?_, ?_⟩
      · have : t - 1 - i = 0 := by omega
        rw [this]; simp
      · have hc : ((i : Int) + 1 ≥ (t : Int) ∧ (i : Int) + 1 ≤ (t : Int)) := by omega
        have hne : ¬ ((i : Int) + 1 ≠ (t : Int)) := by omega
        rw [snippetLoop, if_pos hc, if_neg hne]
        exact snippetLoop_past _ _ _ _ _ (by push_cast; omega)
    · simp only [List.length_cons] at h2
      obtain ⟨l2, hl2, hloop⟩ := ih (i + 1) acc (by omega) (by omega)
      refine ⟨l2, ?_, ?_⟩
      · have : t - 1 - i = (t - 1 - (i + 1)) + 1 := by omega
        rw [this, List.getElem?_cons_succ]
        exact hl2
      · have hc : ¬ ((i : Int) + 1 ≥ (t : Int) ∧ (i : Int) + 1 ≤ (t : Int)) := by omega
        rw [snippetLoop, if_neg hc]
        exact hloop

/-- Claim C6. The window is not clamped to the top of the file: for a readable
file with at least `t` lines, a context size `k` and a target line `t` with
`1 ≤ t < k`, `getSnippet` with column 0 returns exactly the `t`-th line of the
file. -/
theorem getSnippet_nonClamping (fs : List Char → Option (List Char)) (k : Int)
    (path file : List Char) (t : Nat) (hf : fs path = some file)
    (h1 : 1 ≤ t) (htk : (t : Int) < k) (hlen : t ≤ (stringsSplit file "\n".toList).length) :
    (stringsSplit file "\n".toList)[t - 1]? = some (getSnippet fs k path (t : Int) 0) := by
  rw [getSnippet_readable fs k path file t hf (by unfold maxInt; omega), if_pos htk]
  obtain ⟨l, hl, hloop⟩ := snippetLoop_single t (stringsSplit file "\n".toList) 0 [] (by omega)
    (by omega)
  rw [hloop]
  simpa using hl

/-- Witness of claim C6: context window 3 and target line 2 give only line 2. -/
theorem getSnippet_nonClamping_witness :
    (stringsSplit "one\ntwo\nthree".toList "\n".toList)[2 - 1]? =
        some (getSnippet (fun _ => some "one\ntwo\nthree".toList) 3 "f".toList ((2 : Nat) : Int) 0)
    ∧ getSnippet (fun _ => some "one\ntwo\nthree".toList) 3 "f".toList 2 0 = "two".toList :=
  ⟨getSnippet_nonClamping (fun _ => some "one\ntwo\nthree".toList) 3 "f".toList
      "one\ntwo\nthree".toList 2 rfl (by decide) (by decide) (by decide),
    by decide⟩

/-- Claim C7. For a readable file and a column `c ≥ 1`, the snippet is the
snippet for column 0 followed by a newline, `c - 1` spaces and one caret; for
column 0 the snippet is the collected lines alone, without caret line. -/
theorem getSnippet_caret (fs : List Char → Option (List Char)) (k : Int)
    (path file : List Char) (line c : Int) (hf : fs path = some file)
    (hc1 : 1 ≤ c) (hc2 : c ≤ maxInt) :
    getSnippet fs k path line c =
        getSnippet fs k path line 0 ++ "\n".toList ++ List.replicate (c - 1).toNat ' '
          ++ "^".toList
    ∧ getSnippet fs k path line 0 =
        snippetLoop (if line < k then line else wrapInt (line - k)) line
          (stringsSplit file "\n".toList) 0 [] := by
  unfold getSnippet
  rw [hf]
  have hc : c ≠ 0 := by omega
  simp only [ne_eq, hc, not_false_eq_true, if_true, not_true_eq_false, if_false]
  rw [wrapInt_eq (c - 1) (by unfold minInt; omega) (by omega)]
  simp

/-- Witness of claim C7: column 5 gives a last line of 4 spaces and a caret. -/
theorem getSnippet_caret_witness :
    getSnippet (fun _ => some "one\ntwo\nthree".toList) 1 "f".toList 2 5 =
        getSnippet (fun _ => some "one\ntwo\nthree".toList) 1 "f".toList 2 0 ++ "\n".toList
          ++ List.replicate ((5 : Int) - 1).toNat ' ' ++ "^".toList
    ∧ getSnippet (fun _ => some "one\ntwo\nthree".toList) 1 "f".toList 2 5 =
        "one\ntwo\n    ^".toList :=
  ⟨(getSnippet_caret (fun _ => some "one\ntwo\nthree".toList) 1 "f".toList
      "one\ntwo\nthree".toList 2 5 rfl (by decide) (by decide)).1,
    by decide⟩

/-! ## The left part as a list of segments -/

theorem intercalate_colon_cons (x y : List Char) (ys : List (List Char)) :
    [':'].intercalate (x :: y :: ys) = x ++ ':' :: [':'].intercalate (y :: ys) := by
  simp [List.intercalate, List.intersperse]

theorem processLine_parse_error (fs : List Char → Option (List Char)) (k : Int)
    (base : List Char) (rid : Int) (acc : List Issue) (line : List Char) (e : Failure)
    (h : parseLineIssue line = .error e) : processLine fs k base rid acc line = .error e := by
  unfold processLine
  rw [h]
  rfl

theorem stringsCut_none (sep : List Char) :
    ∀ s : List Char, ¬ sep <:+: s → stringsCut sep s = none := by
  intro s
  induction s with
  | nil => intro _; rfl
  | cons c cs ih =>
    intro h
    have hcs : ¬ sep <:+: cs := fun hh => h (hh.trans (List.suffix_cons c cs).isInfix)
    have hp : ¬ sep.isPrefixOf (c :: cs) = true := by
      intro hh
      exact h (List.isPrefixOf_iff_prefix.mp hh).isInfix
    simp only [stringsCut, hp, if_false, ih hcs, Bool.false_eq_true]

theorem stringsSplit_absent (s sep : List Char) (h : ¬ sep <:+: s) :
    stringsSplit s sep = [s] := by
  have hne : sep ≠ [] := by
    rintro rfl
    exact h List.nil_infix
  unfold stringsSplit
  have : sep.isEmpty = false := by
    cases sep with
    | nil => exact absurd rfl hne
    | cons a as => rfl
  rw [this]
  simp only [Bool.false_eq_true, if_false]
  cases hs : s.length with
  | zero => rfl
  | succ m => rw [genSplit, stringsCut_none sep s h]

theorem processLine_base_absent (fs : List Char → Option (List Char)) (k : Int)
    (base : List Char) (rid : Int) (acc : List Issue) (line : List Char) (iss : Issue)
    (h : parseLineIssue line = .ok (true, some iss)) (hb : ¬ base <:+: iss.FilePath) :
    processLine fs k base rid acc line = .error .indexOutOfRange := by
  unfold processLine
  rw [h]
  simp only [bind, Except.bind]
  rw [stringsSplit_absent _ _ hb]
  rfl

/-! ## The fatal format error -/

/-- Claim C10, the code at the failing inputs.  The function `parseLineIssue`
has failures other than the fatal error of a number conversion: a line with
the WARN label and no `": "` ends in an index-out-of-range panic, and a line
whose right part does not end with a bracketed check name ends in a
slice-bounds panic. -/
theorem parseLineIssue_panics :
    parseLineIssue "[WARN] foo".toList = .error .indexOutOfRange
    ∧ parseLineIssue "[WARN] a.go:1:2: no label here".toList = .error .sliceOutOfRange :=
  ⟨rfl, rfl⟩

/-! ## The units of work of `GetIssues` -/

theorem processLine_cases (fs : List Char → Option (List Char)) (k : Int)
    (base : List Char) (rid : Int) (acc : List Issue) (line : List Char) :
    processLine fs k base rid acc line =
      match parseLineIssue line with
      | .error e => .error e
      | .ok (true, some iss) =>
        match goIndex (stringsSplit iss.FilePath base) 1 with
        | .error e => .error e
        | .ok fp => .ok (acc ++ [enrich fs k rid iss fp])
      | .ok _ => .ok acc := by
  unfold processLine
  cases hp : parseLineIssue line with
  | error e => rfl
  | ok r =>
    obtain ⟨ok, issue⟩ := r
    cases ok with
    | false => cases issue <;> rfl
    | true =>
      cases issue with
      | none => rfl
      | some iss =>
        simp only [bind, Except.bind]
        cases hg : goIndex (stringsSplit iss.FilePath base) 1 with
        | error e => rfl
        | ok fp => rfl

/-- A unit of work succeeds: the line is not recognised, or it is recognised
and the base path can be removed from its file path. -/
theorem processLine_ok_iff (fs : List Char → Option (List Char)) (k : Int)
    (base : List Char) (rid : Int) (acc out : List Issue) (line : List Char) :
    processLine fs k base rid acc line = .ok out ↔
      (UnitOk base line ∧ out = acc ++ (unitIssue fs k base rid line).toList) := by
  rw [processLine_cases]
  unfold unitIssue UnitOk
  cases hp : parseLineIssue line with
  | error e => simp
  | ok r =>
    obtain ⟨ok, issue⟩ := r
    cases ok with
    | false => cases issue <;> simp [eq_comm]
    | true =>
      cases issue with
      | none => simp [eq_comm]
      | some iss =>
        cases hg : goIndex (stringsSplit iss.FilePath base) 1 with
        | error e => simp [hg]
        | ok fp => simp [hg, eq_comm]

theorem foldlM_processLine (fs : List Char → Option (List Char)) (k : Int)
    (base : List Char) (rid : Int) :
    ∀ (order : List (List Char)) (acc issues : List Issue),
      order.foldlM (processLine fs k base rid) acc = .ok issues ↔
        ((∀ line ∈ order, UnitOk base line)
          ∧ issues = acc ++ order.filterMap (unitIssue fs k base rid)) := by
  intro order
  induction order with
  | nil => intro acc issues; simp [pure, Except.pure, eq_comm]
  | cons l rest ih =>
    intro acc issues
    rw [List.foldlM_cons]
    cases hl : processLine fs k base rid acc l with
    | error e =>
      have hno : ¬ UnitOk base l := by
        intro hu
        have := (processLine_ok_iff fs k base rid acc _ l).mpr ⟨hu, rfl⟩
        rw [hl] at this
        cases this
      simp [bind, Except.bind, hno]
    | ok out =>
      obtain ⟨hu, hout⟩ := (processLine_ok_iff fs k base rid acc out l).mp hl
      simp only [bind, Except.bind]
      rw [ih out issues, hout]
      constructor
      · rintro ⟨hall, hiss⟩
        refine ⟨?_, ?_⟩
        · intro line hline
          rcases List.mem_cons.mp hline with rfl | hin
          · exact hu
          · exact hall line hin
        · rw [hiss, List.filterMap_cons]
          cases unitIssue fs k base rid l <;> simp
      · rintro ⟨hall, hiss⟩
        refine ⟨fun line hline => hall line (List.mem_cons_of_mem _ hline), ?_⟩
        rw [hiss, List.filterMap_cons]
        cases unitIssue fs k base rid l <;> simp

theorem parseLineIssue_no_label (line : List Char) (h : ¬ "[WARN] ".toList <+: line) :
    parseLineIssue line = .ok (false, none) := by
  unfold parseLineIssue
  rw [if_pos (fun hf => h (find_warn_starts line hf))]

theorem parseLineIssue_label_ok (rest : List Char) (r : Bool × Option Issue)
    (h : parseLineIssue ("[WARN] ".toList ++ rest) = .ok r) : ∃ iss, r = (true, some iss) := by
  rw [parseLineIssue_label] at h
  simp only [bind, Except.bind, pure, Except.pure] at h
  cases h1 : goIndex (pathExp.Split rest) 1 with
  | error e => rw [h1] at h; cases h
  | ok path1 =>
    rw [h1] at h
    simp only at h
    cases h2 : parseRight path1 with
    | error e => rw [h2] at h; cases h
    | ok cd =>
      rw [h2] at h
      simp only at h
      cases h3 : goIndex (pathExp.Split rest) 0 with
      | error e => rw [h3] at h; cases h
      | ok path0 =>
        rw [h3] at h
        simp only at h
        cases h4 : parseLineCol { CheckName := cd.1, Description := cd.2 }
            (lineColExp.Split path0) with
        | error e => rw [h4] at h; cases h
        | ok iss =>
          rw [h4] at h
          exact ⟨iss, (Except.ok.inj h).symm⟩

theorem unitIssue_label (fs : List Char → Option (List Char)) (k : Int)
    (base : List Char) (rid : Int) (line : List Char) (hu : UnitOk base line)
    (hl : "[WARN] ".toList <+: line) :
    ∃ iss fp, parseLineIssue line = .ok (true, some iss) ∧
      goIndex (stringsSplit iss.FilePath base) 1 = .ok fp ∧
      unitIssue fs k base rid line = some (enrich fs k rid iss fp) := by
  obtain ⟨rest, rfl⟩ := hl
  obtain ⟨r, hr, hfp⟩ := hu
  obtain ⟨iss, rfl⟩ := parseLineIssue_label_ok rest r hr
  obtain ⟨fp, hfp⟩ := hfp iss rfl
  refine ⟨iss, fp, hr, hfp, ?_⟩
  unfold unitIssue
  rw [hr]
  simp only [hfp]

theorem unitIssue_no_label (fs : List Char → Option (List Char)) (k : Int)
    (base : List Char) (rid : Int) (line : List Char) (hl : ¬ "[WARN] ".toList <+: line) :
    unitIssue fs k base rid line = none := by
  unfold unitIssue
  rw [parseLineIssue_no_label line hl]

theorem length_filterMap_unitIssue (fs : List Char → Option (List Char)) (k : Int)
    (base : List Char) (rid : Int) :
    ∀ lines : List (List Char), (∀ line ∈ lines, UnitOk base line) →
      (lines.filterMap (unitIssue fs k base rid)).length =
        lines.countP (fun l => "[WARN] ".toList.isPrefixOf l) := by
  intro lines
  induction lines with
  | nil => intro _; rfl
  | cons l rest ih =>
    intro h
    have hrest := ih (fun line hline => h line (List.mem_cons_of_mem _ hline))
    rw [List.filterMap_cons, List.countP_cons]
    by_cases hl : "[WARN] ".toList <+: l
    · obtain ⟨iss, fp, -, -, hunit⟩ := unitIssue_label fs k base rid l (h l (by simp)) hl
      have hp : "[WARN] ".toList.isPrefixOf l = true := List.isPrefixOf_iff_prefix.mpr hl
      rw [hunit]
      simp only [List.length_cons, hrest, hp, if_true]
    · have hp : ¬ "[WARN] ".toList.isPrefixOf l = true :=
        fun hh => hl (List.isPrefixOf_iff_prefix.mp hh)
      rw [unitIssue_no_label fs k base rid l hl]
      simp only [hrest, hp, if_false, Nat.add_zero, Bool.false_eq_true]

theorem GetIssuesOrder_ok_iff (fs : List Char → Option (List Char)) (k : Int)
    (base : List Char) (rid : Int) (order : List (List Char)) (issues : List Issue) :
    GetIssuesOrder fs k base rid order = .ok issues ↔
      ((∀ line ∈ order, UnitOk base line)
        ∧ issues = order.filterMap (unitIssue fs k base rid)) := by
  unfold GetIssuesOrder
  rw [foldlM_processLine]
  simp

theorem GetIssuesOrder_perm (fs : List Char → Option (List Char)) (k : Int)
    (base : List Char) (rid : Int) (order order2 : List (List Char)) (issues : List Issue)
    (hperm : order.Perm order2) (h : GetIssuesOrder fs k base rid order = .ok issues) :
    ∃ issues2, GetIssuesOrder fs k base rid order2 = .ok issues2 ∧ issues2.Perm issues := by
  obtain ⟨hall, hiss⟩ := (GetIssuesOrder_ok_iff fs k base rid order issues).mp h
  refine ⟨order2.filterMap (unitIssue fs k base rid), ?_, ?_⟩
  · exact (GetIssuesOrder_ok_iff fs k base rid order2 _).mpr
      ⟨fun line hline => hall line (hperm.mem_iff.mpr hline), rfl⟩
  · rw [hiss]
    exact (hperm.filterMap _).symm

/-! ## An unreadable file -/

theorem unitIssue_some (fs : List Char → Option (List Char)) (k : Int)
    (base : List Char) (rid : Int) (line : List Char) (x : Issue)
    (h : unitIssue fs k base rid line = some x) :
    ∃ iss fp, parseLineIssue line = .ok (true, some iss) ∧
      goIndex (stringsSplit iss.FilePath base) 1 = .ok fp ∧ x = enrich fs k rid iss fp := by
  unfold unitIssue at h
  cases hp : parseLineIssue line with
  | error e => rw [hp] at h; cases h
  | ok r =>
    obtain ⟨ok, issue⟩ := r
    rw [hp] at h
    cases ok with
    | false => cases issue <;> cases h
    | true =>
      cases issue with
      | none => cases h
      | some iss =>
        simp only at h
        cases hg : goIndex (stringsSplit iss.FilePath base) 1 with
        | error e => rw [hg] at h; cases h
        | ok fp =>
          rw [hg] at h
          exact ⟨iss, fp, rfl, hg, (Option.some.inj h).symm⟩

/-- Claim C12. Every issue of the collection `GetIssues` returns carries the
report identifier of the call, whatever the order in which the units of work
complete. -/
theorem GetIssues_reportID (fs : List Char → Option (List Char)) (k : Int)
    (report sha base : List Char) (rid : Int) (order : List (List Char))
    (issues : List Issue)
    (horder : order.Perm (stringsSplit report "\n".toList))
    (hret : GetIssuesOrder fs k base rid order = .ok issues) :
    (∀ iss ∈ issues, iss.ReportID = rid)
    ∧ ∃ issues2, GetIssues fs k report sha base rid = .ok issues2 ∧
        ∀ iss ∈ issues2, iss.ReportID = rid := by
  have key : ∀ (o : List (List Char)) (is : List Issue),
      GetIssuesOrder fs k base rid o = .ok is → ∀ iss ∈ is, iss.ReportID = rid := by
    intro o is h iss hmem
    obtain ⟨-, his⟩ := (GetIssuesOrder_ok_iff fs k base rid o is).mp h
    rw [his, List.mem_filterMap] at hmem
    obtain ⟨line, -, hunit⟩ := hmem
    obtain ⟨i0, fp, -, -, rfl⟩ := unitIssue_some fs k base rid line iss hunit
    rfl
  refine ⟨key order issues hret, ?_⟩
  obtain ⟨issues2, h2, -⟩ := GetIssuesOrder_perm fs k base rid order _ issues horder hret
  exact ⟨issues2, h2, key _ issues2 h2⟩

/-- Witness of claim C12: a report of two recognised lines, identifier 7. -/
theorem GetIssues_reportID_witness :
    ∃ issues2,
      GetIssues (fun _ => none) 3
          "[WARN] /b/a.go:1:2: Bad. [X]\n[WARN] /b/c.go:3:4: Worse. [Y]".toList
          "c0ffee".toList "/b".toList 7 = .ok issues2
      ∧ ∀ iss ∈ issues2, iss.ReportID = 7 :=
  (GetIssues_reportID (fun _ => none) 3
    "[WARN] /b/a.go:1:2: Bad. [X]\n[WARN] /b/c.go:3:4: Worse. [Y]".toList "c0ffee".toList
    "/b".toList 7
    ["[WARN] /b/c.go:3:4: Worse. [Y]".toList, "[WARN] /b/a.go:1:2: Bad. [X]".toList]
    [{ ReportID := 7, FilePath := "/c.go".toList, LineNumber := 3, ColumnNumber := 4,
       CheckName := "Y".toList, Description := "Worse.".toList },
     { ReportID := 7, FilePath := "/a.go".toList, LineNumber := 1, ColumnNumber := 2,
       CheckName := "X".toList, Description := "Bad.".toList }]
    (by decide) rfl).2

/-! ## Properties of the runs of `GetIssues` -/

theorem processLine_error_acc (fs : List Char → Option (List Char)) (k : Int)
    (base : List Char) (rid : Int) (acc acc2 : List Issue) (line : List Char) (e : Failure)
    (h : processLine fs k base rid acc line = .error e) :
    processLine fs k base rid acc2 line = .error e := by
  rw [processLine_cases] at h ⊢
  cases hp : parseLineIssue line with
  | error e2 => rw [hp] at h; exact h
  | ok r =>
    obtain ⟨ok, issue⟩ := r
    rw [hp] at h
    cases ok with
    | false => cases issue <;> cases h
    | true =>
      cases issue with
      | none => cases h
      | some iss =>
        simp only at h ⊢
        cases hg : goIndex (stringsSplit iss.FilePath base) 1 with
        | error e2 => rw [hg] at h; exact h
        | ok fp => rw [hg] at h; cases h

theorem unitIssue_of_error (fs : List Char → Option (List Char)) (k : Int)
    (base : List Char) (rid : Int) (acc : List Issue) (line : List Char) (e : Failure)
    (h : processLine fs k base rid acc line = .error e) :
    unitIssue fs k base rid line = none := by
  rw [processLine_cases] at h
  unfold unitIssue
  cases hp : parseLineIssue line with
  | error e2 => rfl
  | ok r =>
    obtain ⟨ok, issue⟩ := r
    rw [hp] at h
    cases ok with
    | false => cases issue <;> rfl
    | true =>
      cases issue with
      | none => rfl
      | some iss =>
        simp only at h ⊢
        cases hg : goIndex (stringsSplit iss.FilePath base) 1 with
        | error e2 => rfl
        | ok fp => rw [hg] at h; cases h

/-- A run that returns: the collection holds what each unit contributes for
the line it read, in the order of completion; every unit that failed
panicked, and then the return came before the end of the process and the
panic is recorded. -/
theorem runUnits_returned (fs : List Char → Option (List Char)) (k : Int)
    (base : List Char) (rid : Int) (lines : List (List Char)) (rf : Bool) :
    ∀ (units : List UnitRun) (acc : List Issue) (c0 : Option Failure) (issues : List Issue)
      (crash : Option Failure),
      runUnits fs k base rid lines rf units acc c0 = .returned issues crash →
        issues = acc ++ (units.map (fun u => lineAt lines u.read)).filterMap
          (unitIssue fs k base rid)
        ∧ (c0.isSome = true → crash.isSome = true)
        ∧ ∀ u ∈ units, ∀ acc2 e,
            processLine fs k base rid acc2 (lineAt lines u.read) = .error e →
              e.isPanic = true ∧ rf = true ∧ crash.isSome = true := by
  intro units
  induction units with
  | nil =>
    intro acc c0 issues crash h
    simp only [runUnits, Outcome.returned.injEq] at h
    obtain ⟨rfl, rfl⟩ := h
    simp
  | cons u rest ih =>
    intro acc c0 issues crash h
    unfold runUnits at h
    cases hl : processLine fs k base rid acc (lineAt lines u.read) with
    | ok out =>
      rw [hl] at h
      simp only at h
      obtain ⟨hu, hout⟩ := (processLine_ok_iff fs k base rid acc out _).mp hl
      obtain ⟨h1, h2, h3⟩ := ih out c0 issues crash h
      refine ⟨?_, h2, ?_⟩
      · rw [h1, hout, List.map_cons, List.filterMap_cons]
        cases unitIssue fs k base rid (lineAt lines u.read) <;> simp
      · intro v hv acc2 e he
        rcases List.mem_cons.mp hv with rfl | hin
        · rw [processLine_error_acc fs k base rid acc2 acc _ e he] at hl
          cases hl
        · exact h3 v hin acc2 e he
    | error e =>
      rw [hl] at h
      simp only at h
      split at h
      · next hcond =>
        simp only [Bool.and_eq_true] at hcond
        obtain ⟨h1, h2, h3⟩ := ih acc (c0 <|> some e) issues crash h
        have hcr : crash.isSome = true := h2 (by cases c0 <;> rfl)
        refine ⟨?_, fun _ => hcr, ?_⟩
        · rw [h1, List.map_cons, List.filterMap_cons,
            unitIssue_of_error fs k base rid acc _ e hl]
        · intro v hv acc2 e2 he
          rcases List.mem_cons.mp hv with rfl | hin
          · rw [processLine_error_acc fs k base rid acc2 acc _ e2 he] at hl
            cases hl
            exact ⟨hcond.1, hcond.2, hcr⟩
          · exact h3 v hin acc2 e2 he
      · cases h

/-- A run in which the process ends at the first failure is the sequential
run over the lines the units read. -/
theorem runUnits_stopFirst (fs : List Char → Option (List Char)) (k : Int)
    (base : List Char) (rid : Int) (lines : List (List Char)) :
    ∀ (units : List UnitRun) (acc : List Issue) (c0 : Option Failure),
      runUnits fs k base rid lines false units acc c0 =
        match (units.map (fun u => lineAt lines u.read)).foldlM
            (processLine fs k base rid) acc with
        | .ok issues => .returned issues c0
        | .error e => .stopped e := by
  intro units
  induction units with
  | nil => intro acc c0; rfl
  | cons u rest ih =>
    intro acc c0
    rw [List.map_cons, List.foldlM_cons]
    unfold runUnits
    cases hl : processLine fs k base rid acc (lineAt lines u.read) with
    | ok out =>
      simp only [bind, Except.bind]
      exact ih out c0
    | error e =>
      simp [bind, Except.bind]

theorem map_lineAt_range (lines : List (List Char)) :
    (List.range lines.length).map (lineAt lines) = lines := by
  apply List.ext_getElem
  · simp
  · intro i h1 h2
    simp [lineAt, h2]

/-- The function `GetIssues` is the run in which the units complete in the
order of the lines, each on the line of its own iteration, and the process
ends at the first failure. -/
theorem GetIssuesRun_inOrder (fs : List Char → Option (List Char)) (k : Int)
    (report sha base : List Char) (rid : Int) :
    GetIssuesRun fs k report sha base rid
        (Schedule.inOrder (stringsSplit report "\n".toList).length false) =
      match GetIssues fs k report sha base rid with
      | .ok issues => .returned issues none
      | .error e => .stopped e := by
  unfold GetIssuesRun GetIssues Schedule.inOrder
  simp only []
  rw [runUnits_stopFirst, List.map_map]
  have : ((fun u : UnitRun => lineAt (stringsSplit report "\n".toList) u.read) ∘
      fun i => ({ launched := i, read := i } : UnitRun)) =
      lineAt (stringsSplit report "\n".toList) := rfl
  rw [this, map_lineAt_range]

/-- The function `GetIssuesOrder` is a run in which the process ends at the
first failure, on the lines the units read, in their order of completion. -/
theorem GetIssuesRun_order (fs : List Char → Option (List Char)) (k : Int)
    (report sha base : List Char) (rid : Int) (units : List UnitRun) :
    GetIssuesRun fs k report sha base rid { units := units, returnsFirst := false } =
      match GetIssuesOrder fs k base rid
          (units.map (fun u => lineAt (stringsSplit report "\n".toList) u.read)) with
      | .ok issues => .returned issues none
      | .error e => .stopped e := by
  unfold GetIssuesRun GetIssuesOrder
  exact runUnits_stopFirst fs k base rid _ units [] none

theorem Schedule.inOrder_valid (n : Nat) (rf : Bool) : (Schedule.inOrder n rf).Valid n := by
  unfold Schedule.inOrder Schedule.Valid
  refine ⟨?_, ?_⟩
  · simp only [List.map_map]
    have : (UnitRun.launched ∘ fun i => ({ launched := i, read := i } : UnitRun)) = id := rfl
    rw [this, List.map_id]
  · intro u hu
    simp only [List.mem_map, List.mem_range] at hu
    obtain ⟨i, hi, rfl⟩ := hu
    exact ⟨le_refl _, hi⟩

/-- The lines read in a run in which each unit reads the line of its own
iteration are the lines of the report, in the order of completion. -/
theorem Schedule.ownLine_perm (lines : List (List Char)) (s : Schedule)
    (hv : s.Valid lines.length) (ho : s.OwnLine) :
    (s.units.map (fun u => lineAt lines u.read)).Perm lines := by
  have h1 : s.units.map (fun u => lineAt lines u.read) =
      (s.units.map UnitRun.launched).map (lineAt lines) := by
    rw [List.map_map]
    apply List.map_congr_left
    intro u hu
    simp only [Function.comp, ho u hu]
  rw [h1]
  have h2 := hv.1.map (lineAt lines)
  rw [map_lineAt_range] at h2
  exact h2
/-- A run in which every unit succeeds returns, with no panic pending. -/
theorem runUnits_ok (fs : List Char → Option (List Char)) (k : Int)
    (base : List Char) (rid : Int) (lines : List (List Char)) (rf : Bool) :
    ∀ (units : List UnitRun) (acc : List Issue) (c0 : Option Failure),
      (∀ u ∈ units, UnitOk base (lineAt lines u.read)) →
      runUnits fs k base rid lines rf units acc c0 =
        .returned (acc ++ (units.map (fun u => lineAt lines u.read)).filterMap
          (unitIssue fs k base rid)) c0 := by
  intro units
  induction units with
  | nil => intro acc c0 _; simp [runUnits]
  | cons u rest ih =>
    intro acc c0 h
    unfold runUnits
    rw [(processLine_ok_iff fs k base rid acc _ _).mpr ⟨h u (List.mem_cons_self _ _), rfl⟩]
    simp only
    rw [ih _ c0 (fun v hv => h v (List.mem_cons_of_mem _ hv)), List.map_cons,
      List.filterMap_cons]
    cases unitIssue fs k base rid (lineAt lines u.read) <;> simp

/-- In a run that returns with no panic pending every unit succeeded. -/
theorem runUnits_clean (fs : List Char → Option (List Char)) (k : Int)
    (base : List Char) (rid : Int) (lines : List (List Char)) (rf : Bool)
    (units : List UnitRun) (acc : List Issue) (c0 : Option Failure) (issues : List Issue)
    (h : runUnits fs k base rid lines rf units acc c0 = .returned issues none) :
    ∀ u ∈ units, UnitOk base (lineAt lines u.read) := by
  intro u hu
  obtain ⟨-, -, h3⟩ := runUnits_returned fs k base rid lines rf units acc c0 issues none h
  cases hl : processLine fs k base rid [] (lineAt lines u.read) with
  | ok out => exact ((processLine_ok_iff fs k base rid [] out _).mp hl).1
  | error e =>
    have := (h3 u hu [] e hl).2.2
    cases this

theorem unitIssue_base (fs : List Char → Option (List Char)) (k : Int)
    (base : List Char) (rid : Int) (line : List Char) (x : Issue)
    (h : unitIssue fs k base rid line = some x) :
    ∃ iss fp, parseLineIssue line = .ok (true, some iss) ∧ base <:+: iss.FilePath ∧
      goIndex (stringsSplit iss.FilePath base) 1 = .ok fp ∧ x = enrich fs k rid iss fp := by
  obtain ⟨iss, fp, hp, hg, hx⟩ := unitIssue_some fs k base rid line x h
  refine ⟨iss, fp, hp, ?_, hg, hx⟩
  by_contra hb
  rw [stringsSplit_absent _ _ hb] at hg
  cases hg

theorem lineAt_mem (fs : List Char → Option (List Char)) (k : Int)
    (base : List Char) (rid : Int) (lines : List (List Char)) (i : Nat) (x : Issue)
    (h : unitIssue fs k base rid (lineAt lines i) = some x) : lineAt lines i ∈ lines := by
  unfold lineAt at h ⊢
  cases hi : lines[i]? with
  | none =>
    rw [hi] at h
    cases h
  | some l =>
    simp only [Option.getD_some]
    obtain ⟨hlt, rfl⟩ := List.getElem?_eq_some.mp hi
    exact List.getElem_mem _

/-- Every issue of a collection a run returns is the enriched issue of a
line of the report that a unit read, and the base path occurs in the file path
parsed from that line. -/
theorem GetIssuesRun_mem (fs : List Char → Option (List Char)) (k : Int)
    (report sha base : List Char) (rid : Int) (s : Schedule) (issues : List Issue)
    (crash : Option Failure)
    (h : GetIssuesRun fs k report sha base rid s = .returned issues crash) :
    ∀ x ∈ issues, ∃ l ∈ stringsSplit report "\n".toList, ∃ iss fp,
      parseLineIssue l = .ok (true, some iss) ∧ base <:+: iss.FilePath ∧
        goIndex (stringsSplit iss.FilePath base) 1 = .ok fp ∧ x = enrich fs k rid iss fp := by
  intro x hx
  unfold GetIssuesRun at h
  obtain ⟨h1, -, -⟩ := runUnits_returned fs k base rid _ _ _ _ _ _ _ h
  rw [h1, List.nil_append, List.mem_filterMap] at hx
  obtain ⟨l, hl, hu⟩ := hx
  rw [List.mem_map] at hl
  obtain ⟨u, -, rfl⟩ := hl
  exact ⟨_, lineAt_mem fs k base rid _ _ x hu, unitIssue_base fs k base rid _ x hu⟩

/-- A run in which a unit reads a line that fails never returns cleanly: the
process ends before the return, or the call returns with a panic pending. -/
theorem GetIssuesRun_failure (fs : List Char → Option (List Char)) (k : Int)
    (report sha base : List Char) (rid : Int) (s : Schedule) (line : List Char) (e : Failure)
    (hfail : processLine fs k base rid [] line = .error e)
    (hread : ∃ u ∈ s.units, (stringsSplit report "\n".toList)[u.read]? = some line) :
    (∃ e2, GetIssuesRun fs k report sha base rid s = .stopped e2) ∨
      (e.isPanic = true ∧ s.returnsFirst = true ∧
        ∃ issues e2, GetIssuesRun fs k report sha base rid s = .returned issues (some e2)) := by
  obtain ⟨u, hu, hline⟩ := hread
  have hat : lineAt (stringsSplit report "\n".toList) u.read = line := by
    unfold lineAt
    rw [hline]
    rfl
  cases hrun : GetIssuesRun fs k report sha base rid s with
  | stopped e2 => exact Or.inl ⟨e2, rfl⟩
  | returned issues crash =>
    right
    unfold GetIssuesRun at hrun
    obtain ⟨-, -, h3⟩ := runUnits_returned fs k base rid _ _ _ _ _ _ _ hrun
    obtain ⟨hp, hrf, hc⟩ := h3 u hu [] e (by rw [hat]; exact hfail)
    refine ⟨hp, hrf, issues, ?_⟩
    cases crash with
    | none => cases hc
    | some e2 => exact ⟨e2, rfl⟩

/-- A run in which a unit reads a line on which `parseLineIssue` ends in a
fatal error never returns: `log.Fatalf` ends the process and no deferred
`wg.Done()` runs. -/
theorem GetIssuesRun_fatal (fs : List Char → Option (List Char)) (k : Int)
    (report sha base : List Char) (rid : Int) (s : Schedule) (line : List Char) (e : Failure)
    (hparse : parseLineIssue line = .error e) (hfatal : e.isPanic = false)
    (hread : ∃ u ∈ s.units, (stringsSplit report "\n".toList)[u.read]? = some line) :
    ∃ e2, GetIssuesRun fs k report sha base rid s = .stopped e2 := by
  rcases GetIssuesRun_failure fs k report sha base rid s line e
    (processLine_parse_error fs k base rid [] line e hparse) hread with h | ⟨hp, -, -⟩
  · exact h
  · rw [hfatal] at hp
    cases hp

/-- Every issue of a collection a run returns carries the report identifier
of the call. -/
theorem GetIssuesRun_reportID (fs : List Char → Option (List Char)) (k : Int)
    (report sha base : List Char) (rid : Int) (s : Schedule) (issues : List Issue)
    (crash : Option Failure)
    (h : GetIssuesRun fs k report sha base rid s = .returned issues crash) :
    ∀ x ∈ issues, x.ReportID = rid := by
  intro x hx
  obtain ⟨l, -, i, fp, -, -, -, rfl⟩ :=
    GetIssuesRun_mem fs k report sha base rid s issues crash h x hx
  rfl

/-! ## The base path in the runs of `GetIssues` -/

/-- Counterexample to claim C9 as stated.  The line
`[WARN] /other/b.go:3:4: Bad. [Y]` is recognised and the base path
`/tmp/build` does not occur in its file path, yet a call on a report with this
line can return a collection.  With the line in second place, in the run in
which each unit reads the line of its own iteration, the unit of the line
panics, its deferred `wg.Done()` releases `wg.Wait()`, and the call returns the
issue of the first line before the panic ends the process.  With the line in
first place, in the run in which the unit launched for it reads the range
variable once the loop has reached the second line, no unit reads the line:
the call returns the issue of the second line twice and nothing fails. -/
theorem GetIssues_returns_after_panic :
    (parseLineIssue "[WARN] /other/b.go:3:4: Bad. [Y]".toList =
        .ok (true, some { FilePath := "/other/b.go".toList, LineNumber := 3, ColumnNumber := 4,
                          CheckName := "Y".toList, Description := "Bad.".toList })
      ∧ ¬ "/tmp/build".toList <:+: "/other/b.go".toList)
    ∧ (Schedule.Valid 2 (Schedule.inOrder 2 true)
      ∧ GetIssuesRun (fun _ => none) 3
          "[WARN] /tmp/build/a.go:1:2: Bad. [X]\n[WARN] /other/b.go:3:4: Bad. [Y]".toList
          "c0ffee".toList "/tmp/build".toList 7 (Schedule.inOrder 2 true) =
        .returned
          [{ ReportID := 7, FilePath := "/a.go".toList, LineNumber := 1, ColumnNumber := 2,
             CheckName := "X".toList, Description := "Bad.".toList }]
          (some .indexOutOfRange))
    ∧ (Schedule.Valid 2
          { units := [{ launched := 0, read := 1 }, { launched := 1, read := 1 }]
            returnsFirst := false }
      ∧ GetIssuesRun (fun _ => none) 3
          "[WARN] /other/b.go:3:4: Bad. [Y]\n[WARN] /tmp/build/a.go:1:2: Bad. [X]".toList
          "c0ffee".toList "/tmp/build".toList 7
          { units := [{ launched := 0, read := 1 }, { launched := 1, read := 1 }]
            returnsFirst := false } =
        .returned
          [{ ReportID := 7, FilePath := "/a.go".toList, LineNumber := 1, ColumnNumber := 2,
             CheckName := "X".toList, Description := "Bad.".toList },
           { ReportID := 7, FilePath := "/a.go".toList, LineNumber := 1, ColumnNumber := 2,
             CheckName := "X".toList, Description := "Bad.".toList }]
          none) :=
  ⟨⟨rfl, by decide⟩, ⟨⟨by decide, by decide⟩, rfl⟩, ⟨⟨by decide, by decide⟩, rfl⟩⟩

/-- Claim C9, amended.  When the base path does not occur in the file path
parsed from a recognised line, the unit of work that reads that line appends
no issue to any collection: it stops with the index-out-of-range panic, and it
does so on every run.  A run in which a unit reads the line never ends well:
the process ends before the call returns, or, the other units being left to
complete after the panic, the call returns with the panic pending.  No
collection a run returns holds an issue made from that line: every issue of it
is the enriched issue of another line of the report, in whose parsed file path
the base path occurs, with the piece `strings.Split` gives at index 1 as its
`FilePath`. -/
theorem GetIssues_base_absent (fs : List Char → Option (List Char)) (k : Int)
    (report sha base : List Char) (rid : Int) (line : List Char) (iss : Issue)
    (hparse : parseLineIssue line = .ok (true, some iss))
    (hbase : ¬ base <:+: iss.FilePath) :
    (∀ issues, processLine fs k base rid issues line = .error .indexOutOfRange)
    ∧ (∀ s : Schedule,
        (∃ u ∈ s.units, (stringsSplit report "\n".toList)[u.read]? = some line) →
          (∃ e, GetIssuesRun fs k report sha base rid s = .stopped e) ∨
          (s.returnsFirst = true ∧
            ∃ issues e, GetIssuesRun fs k report sha base rid s = .returned issues (some e)))
    ∧ (∀ (s : Schedule) (issues : List Issue) (crash : Option Failure),
        GetIssuesRun fs k report sha base rid s = .returned issues crash →
          ∀ x ∈ issues, ∃ l ∈ stringsSplit report "\n".toList, ∃ i fp,
            l ≠ line ∧ parseLineIssue l = .ok (true, some i) ∧ base <:+: i.FilePath ∧
              goIndex (stringsSplit i.FilePath base) 1 = .ok fp ∧
              x = enrich fs k rid i fp) := by
  have hfail := fun acc => processLine_base_absent fs k base rid acc line iss hparse hbase
  refine ⟨hfail, ?_, ?_⟩
  · intro s hread
    rcases GetIssuesRun_failure fs k report sha base rid s line _ (hfail []) hread with
      h | ⟨-, hrf, h⟩
    · exact Or.inl h
    · exact Or.inr ⟨hrf, h⟩
  · intro s issues crash hret x hx
    obtain ⟨l, hl, i, fp, hp, hb, hg, rfl⟩ :=
      GetIssuesRun_mem fs k report sha base rid s issues crash hret x hx
    refine ⟨l, hl, i, fp, ?_, hp, hb, hg, rfl⟩
    rintro rfl
    rw [hparse] at hp
    cases hp
    exact hbase hb

/-- Witness of claim C9, amended: a report whose second line has a path
outside the base path.  The unit of that line panics; in the run in which the
process ends at the panic the call does not return, and in the run in which
the call returns first every issue returned comes from the first line. -/
theorem GetIssues_base_absent_witness :
    processLine (fun _ => none) 3 "/tmp/build".toList 7 []
        "[WARN] /other/b.go:3:4: Bad. [Y]".toList = .error .indexOutOfRange
    ∧ GetIssuesRun (fun _ => none) 3
        "[WARN] /tmp/build/a.go:1:2: Bad. [X]\n[WARN] /other/b.go:3:4: Bad. [Y]".toList
        "c0ffee".toList "/tmp/build".toList 7 (Schedule.inOrder 2 false) =
      .stopped .indexOutOfRange
    ∧ ((∃ e, GetIssuesRun (fun _ => none) 3
          "[WARN] /tmp/build/a.go:1:2: Bad. [X]\n[WARN] /other/b.go:3:4: Bad. [Y]".toList
          "c0ffee".toList "/tmp/build".toList 7 (Schedule.inOrder 2 true) = .stopped e) ∨
        ((Schedule.inOrder 2 true).returnsFirst = true ∧
          ∃ issues e, GetIssuesRun (fun _ => none) 3
            "[WARN] /tmp/build/a.go:1:2: Bad. [X]\n[WARN] /other/b.go:3:4: Bad. [Y]".toList
            "c0ffee".toList "/tmp/build".toList 7 (Schedule.inOrder 2 true) =
              .returned issues (some e))) :=
  ⟨(GetIssues_base_absent (fun _ => none) 3
      "[WARN] /tmp/build/a.go:1:2: Bad. [X]\n[WARN] /other/b.go:3:4: Bad. [Y]".toList
      "c0ffee".toList "/tmp/build".toList 7 "[WARN] /other/b.go:3:4: Bad. [Y]".toList
      { FilePath := "/other/b.go".toList, LineNumber := 3, ColumnNumber := 4,
        CheckName := "Y".toList, Description := "Bad.".toList }
      rfl (by decide)).1 [],
    rfl,
    (GetIssues_base_absent (fun _ => none) 3
      "[WARN] /tmp/build/a.go:1:2: Bad. [X]\n[WARN] /other/b.go:3:4: Bad. [Y]".toList
      "c0ffee".toList "/tmp/build".toList 7 "[WARN] /other/b.go:3:4: Bad. [Y]".toList
      { FilePath := "/other/b.go".toList, LineNumber := 3, ColumnNumber := 4,
        CheckName := "Y".toList, Description := "Bad.".toList }
      rfl (by decide)).2.1 (Schedule.inOrder 2 true)
        ⟨{ launched := 1, read := 1 }, by decide, rfl⟩⟩

/-! ## The shared range variable -/

/-- Claim C13, the code at the failing input, and the part of the claim that
holds.  The closure of a unit of work reads the range variable `line`, which
it shares with the loop.  On the report of the three lines
`[WARN] /b/a.go:1:2: Bad. [X]`, `Audit done.`, `[WARN] /b/c.go:3:4: Worse. [Y]`
with the base path `/b`, in the run in which the unit launched for the first
line reads the variable once the loop has reached the third line, the call
returns the issue of the third line twice and no issue for the first line,
where the claim has one issue for each of the two lines.  In every run in
which each unit reads the line of its own iteration and no unit fails, the
claim holds: the collection is a rearrangement of one enriched issue for each
line that begins with `[WARN] ` and nothing for any other line, and its size
is the number of lines that begin with `[WARN] `. -/
theorem GetIssues_shared_line :
    (Schedule.Valid 3
        { units := [{ launched := 0, read := 2 }, { launched := 1, read := 1 },
                    { launched := 2, read := 2 }]
          returnsFirst := false }
      ∧ GetIssuesRun (fun _ => none) 3
          "[WARN] /b/a.go:1:2: Bad. [X]\nAudit done.\n[WARN] /b/c.go:3:4: Worse. [Y]".toList
          "c0ffee".toList "/b".toList 7
          { units := [{ launched := 0, read := 2 }, { launched := 1, read := 1 },
                      { launched := 2, read := 2 }]
            returnsFirst := false } =
        .returned
          [{ ReportID := 7, FilePath := "/c.go".toList, LineNumber := 3, ColumnNumber := 4,
             CheckName := "Y".toList, Description := "Worse.".toList },
           { ReportID := 7, FilePath := "/c.go".toList, LineNumber := 3, ColumnNumber := 4,
             CheckName := "Y".toList, Description := "Worse.".toList }]
          none
      ∧ (stringsSplit
          "[WARN] /b/a.go:1:2: Bad. [X]\nAudit done.\n[WARN] /b/c.go:3:4: Worse. [Y]".toList
          "\n".toList).filterMap (unitIssue (fun _ => none) 3 "/b".toList 7) =
        [{ ReportID := 7, FilePath := "/a.go".toList, LineNumber := 1, ColumnNumber := 2,
           CheckName := "X".toList, Description := "Bad.".toList },
         { ReportID := 7, FilePath := "/c.go".toList, LineNumber := 3, ColumnNumber := 4,
           CheckName := "Y".toList, Description := "Worse.".toList }])
    ∧ ∀ (fs : List Char → Option (List Char)) (k : Int) (report sha base : List Char)
        (rid : Int) (s : Schedule) (issues : List Issue),
        s.Valid (stringsSplit report "\n".toList).length → s.OwnLine →
        GetIssuesRun fs k report sha base rid s = .returned issues none →
          issues.Perm ((stringsSplit report "\n".toList).filterMap (unitIssue fs k base rid))
          ∧ (∀ line ∈ stringsSplit report "\n".toList, "[WARN] ".toList <+: line →
              ∃ iss fp, parseLineIssue line = .ok (true, some iss) ∧
                goIndex (stringsSplit iss.FilePath base) 1 = .ok fp ∧
                unitIssue fs k base rid line = some (enrich fs k rid iss fp))
          ∧ (∀ line ∈ stringsSplit report "\n".toList, ¬ "[WARN] ".toList <+: line →
              parseLineIssue line = .ok (false, none) ∧ unitIssue fs k base rid line = none)
          ∧ issues.length =
              (stringsSplit report "\n".toList).countP
                (fun l => "[WARN] ".toList.isPrefixOf l) := by
  refine ⟨⟨⟨by decide, by decide⟩, rfl, rfl⟩, ?_⟩
  intro fs k report sha base rid s issues hv ho hret
  unfold GetIssuesRun at hret
  simp only [] at hret
  have hperm := Schedule.ownLine_perm _ s hv ho
  have hall : ∀ line ∈ stringsSplit report "\n".toList, UnitOk base line := by
    intro line hline
    have hin := hperm.mem_iff.mpr hline
    rw [List.mem_map] at hin
    obtain ⟨u, hu, rfl⟩ := hin
    exact runUnits_clean fs k base rid _ _ _ _ _ _ hret u hu
  obtain ⟨hiss, -, -⟩ := runUnits_returned fs k base rid _ _ _ _ _ _ _ hret
  rw [List.nil_append] at hiss
  have hp : issues.Perm
      ((stringsSplit report "\n".toList).filterMap (unitIssue fs k base rid)) := by
    rw [hiss]
    exact hperm.filterMap _
  refine ⟨hp, ?_, ?_, ?_⟩
  · intro line hline hl
    exact unitIssue_label fs k base rid line (hall line hline) hl
  · intro line _ hl
    exact ⟨parseLineIssue_no_label line hl, unitIssue_no_label fs k base rid line hl⟩
  · rw [hp.length_eq]
    exact length_filterMap_unitIssue fs k base rid _ hall

/-- Claim C14, the code at the failing input, and the part of the claim that
holds.  Two runs of one call, on the report of the three lines
`[WARN] /b/a.go:1:2: Bad. [X]`, `Audit done.`, `[WARN] /b/c.go:3:4: Worse. [Y]`
with the base path `/b`: when each unit reads the line of its own iteration
the call returns the issues of the first and of the third line; when the unit
launched for the first line reads the shared range variable once the loop has
reached the third line, the call returns the issue of the third line twice.
The two collections are not rearrangements of one another.  Two runs also
differ after a panic: on a report whose second line lacks the base path, the
process ends before the call returns in one run, and the call returns the
issue of the first line in the other.  Between runs in which each unit reads
the line of its own iteration the claim holds: when one returns with no unit
failing, so does every other, with a rearrangement of the same issues; and the
commit identifier plays no part in any run. -/
theorem GetIssues_runs_differ :
    (Schedule.Valid 3 (Schedule.inOrder 3 false)
      ∧ Schedule.Valid 3
          { units := [{ launched := 0, read := 2 }, { launched := 1, read := 1 },
                      { launched := 2, read := 2 }]
            returnsFirst := false }
      ∧ ∃ issues1 issues2,
        GetIssuesRun (fun _ => none) 3
            "[WARN] /b/a.go:1:2: Bad. [X]\nAudit done.\n[WARN] /b/c.go:3:4: Worse. [Y]".toList
            "c0ffee".toList "/b".toList 7 (Schedule.inOrder 3 false) =
          .returned issues1 none
        ∧ GetIssuesRun (fun _ => none) 3
            "[WARN] /b/a.go:1:2: Bad. [X]\nAudit done.\n[WARN] /b/c.go:3:4: Worse. [Y]".toList
            "c0ffee".toList "/b".toList 7
            { units := [{ launched := 0, read := 2 }, { launched := 1, read := 1 },
                        { launched := 2, read := 2 }]
              returnsFirst := false } =
          .returned issues2 none
        ∧ ¬ issues1.Perm issues2)
    ∧ (GetIssuesRun (fun _ => none) 3
          "[WARN] /tmp/build/a.go:1:2: Bad. [X]\n[WARN] /other/b.go:3:4: Bad. [Y]".toList
          "c0ffee".toList "/tmp/build".toList 7 (Schedule.inOrder 2 false) =
        .stopped .indexOutOfRange
      ∧ GetIssuesRun (fun _ => none) 3
          "[WARN] /tmp/build/a.go:1:2: Bad. [X]\n[WARN] /other/b.go:3:4: Bad. [Y]".toList
          "c0ffee".toList "/tmp/build".toList 7 (Schedule.inOrder 2 true) =
        .returned
          [{ ReportID := 7, FilePath := "/a.go".toList, LineNumber := 1, ColumnNumber := 2,
             CheckName := "X".toList, Description := "Bad.".toList }]
          (some .indexOutOfRange))
    ∧ (∀ (fs : List Char → Option (List Char)) (k : Int) (report sha base : List Char)
        (rid : Int) (s1 s2 : Schedule) (issues1 : List Issue),
        s1.Valid (stringsSplit report "\n".toList).length → s1.OwnLine →
        s2.Valid (stringsSplit report "\n".toList).length → s2.OwnLine →
        GetIssuesRun fs k report sha base rid s1 = .returned issues1 none →
          ∃ issues2, GetIssuesRun fs k report sha base rid s2 = .returned issues2 none
            ∧ issues2.Perm issues1)
    ∧ ∀ (fs : List Char → Option (List Char)) (k : Int) (report sha sha2 base : List Char)
        (rid : Int) (s : Schedule),
        GetIssuesRun fs k report sha2 base rid s = GetIssuesRun fs k report sha base rid s := by
  refine ⟨⟨⟨by decide, by decide⟩, ⟨by decide, by decide⟩, _, _, rfl, rfl, by decide⟩,
    ⟨rfl, rfl⟩, ?_, fun _ _ _ _ _ _ _ _ => rfl⟩
  intro fs k report sha base rid s1 s2 issues1 hv1 ho1 hv2 ho2 hret
  unfold GetIssuesRun at hret ⊢
  simp only [] at hret ⊢
  have hperm1 := Schedule.ownLine_perm _ s1 hv1 ho1
  have hperm2 := Schedule.ownLine_perm _ s2 hv2 ho2
  have hall1 := runUnits_clean fs k base rid _ _ _ _ _ _ hret
  have hall2 : ∀ u ∈ s2.units,
      UnitOk base (lineAt (stringsSplit report "\n".toList) u.read) := by
    intro u hu
    have hin : lineAt (stringsSplit report "\n".toList) u.read ∈
        s1.units.map (fun u => lineAt (stringsSplit report "\n".toList) u.read) :=
      hperm1.mem_iff.mpr (hperm2.mem_iff.mp (List.mem_map_of_mem _ hu))
    rw [List.mem_map] at hin
    obtain ⟨v, hv, hveq⟩ := hin
    rw [← hveq]
    exact hall1 v hv
  obtain ⟨hiss, -, -⟩ := runUnits_returned fs k base rid _ _ _ _ _ _ _ hret
  refine ⟨_, runUnits_ok fs k base rid _ _ s2.units [] none hall2, ?_⟩
  rw [hiss]
  exact ((hperm2.trans hperm1.symm).filterMap _).append_left _

/-! ## The leftmost search finds the first match -/

theorem findAt_lit_none_all (c : Char) (re : Regexp) :
    ∀ s : List Char, findAt (.lit c :: re) false s = none →
      ∀ u v, s = u ++ v → matchHere (.lit c :: re) false v = none := by
  intro s
  induction s with
  | nil =>
    intro _ u v huv
    have hv : v = [] := (List.append_eq_nil.mp huv.symm).2
    subst hv
    simp [matchHere]
  | cons x xs ih =>
    intro h u v huv
    simp only [findAt] at h
    cases hm : matchHere (.lit c :: re) false (x :: xs) with
    | some r => rw [hm] at h; cases h
    | none =>
      rw [hm] at h
      cases hf : findAt (.lit c :: re) false xs with
      | some t => rw [hf] at h; obtain ⟨a, b, d⟩ := t; cases h
      | none =>
        cases u with
        | nil =>
          simp only [List.nil_append] at huv
          rw [← huv]; exact hm
        | cons y u2 =>
          simp only [List.cons_append, List.cons.injEq] at huv
          exact ih hf u2 v huv.2

theorem findAt_lit_first (c : Char) (re : Regexp) :
    ∀ (s pre m post : List Char), findAt (.lit c :: re) false s = some (pre, m, post) →
      matchHere (.lit c :: re) false (m ++ post) = some post
      ∧ ∀ u v, pre = u ++ v → v ≠ [] → matchHere (.lit c :: re) false (v ++ (m ++ post)) = none := by
  intro s
  induction s with
  | nil => intro pre m post h; simp [findAt, matchHere] at h
  | cons x xs ih =>
    intro pre m post h
    have hs := findAt_sound _ _ _ _ _ _ h
    simp only [findAt] at h
    cases hm : matchHere (.lit c :: re) false (x :: xs) with
    | some r =>
      rw [hm] at h
      simp only [Option.some.injEq, Prod.mk.injEq] at h
      obtain ⟨rfl, -, rfl⟩ := h
      simp only [List.nil_append] at hs
      refine ⟨by rw [← hs]; exact hm, ?_⟩
      intro u v huv hv
      have : v = [] := (List.append_eq_nil.mp huv.symm).2
      exact absurd this hv
    | none =>
      rw [hm] at h
      cases hf : findAt (.lit c :: re) false xs with
      | none => rw [hf] at h; cases h
      | some t =>
        obtain ⟨pre2, m2, post2⟩ := t
        rw [hf] at h
        simp only [Option.some.injEq, Prod.mk.injEq] at h
        obtain ⟨rfl, rfl, rfl⟩ := h
        obtain ⟨h1, h2⟩ := ih pre2 m2 post2 hf
        have hxs := findAt_sound _ _ _ _ _ _ hf
        refine ⟨h1, ?_⟩
        intro u v huv hv
        cases u with
        | nil =>
          simp only [List.nil_append] at huv
          rw [← huv, List.cons_append, ← List.append_assoc, ← hxs]
          exact hm
        | cons y u2 =>
          simp only [List.cons_append, List.cons.injEq] at huv
          exact h2 u2 v huv.2 hv

theorem matchHere_pathExp_some (b : Bool) (t r : List Char)
    (h : matchHere pathExp b t = some r) : t = ':' :: ' ' :: r := by
  cases t with
  | nil => simp [pathExp, matchHere] at h
  | cons x t =>
    cases t with
    | nil =>
      simp only [pathExp, matchHere] at h
      split at h <;> cases h
    | cons y t =>
      simp only [pathExp, matchHere] at h
      split at h
      · next hx =>
        split at h
        · next hy =>
          simp only [Option.some.injEq] at h
          rw [hx, hy, h]
        · cases h
      · cases h

theorem matchHere_descExp_some (b : Bool) (t r : List Char)
    (h : matchHere descExp b t = some r) : t = '.' :: ' ' :: '[' :: r := by
  cases t with
  | nil => simp [descExp, matchHere] at h
  | cons x t =>
    simp only [descExp, matchHere] at h
    split at h
    swap
    · cases h
    next hx =>
    cases t with
    | nil => simp at h
    | cons y t =>
      simp only at h
      split at h
      swap
      · cases h
      next hy =>
      cases t with
      | nil => simp at h
      | cons z t =>
        simp only at h
        split at h
        · next hz =>
          simp only [Option.some.injEq] at h
          rw [hx, hy, hz, h]
        · cases h

theorem matchHere_lineColExp_some (b : Bool) (t r : List Char)
    (h : matchHere lineColExp b t = some r) : t = ':' :: r := by
  cases t with
  | nil => simp [lineColExp, matchHere] at h
  | cons x t =>
    simp only [lineColExp, matchHere] at h
    split at h
    · next hx =>
      simp only [Option.some.injEq] at h
      rw [hx, h]
    · cases h

/-- The shape of a leftmost match of a literal pattern: the text before the
match does not contain the separator. -/
theorem find_pathExp_inv (s pre m post : List Char)
    (h : findAt pathExp false s = some (pre, m, post)) :
    s = pre ++ ':' :: ' ' :: post ∧ ¬ [':', ' '] <:+: pre := by
  have hs := findAt_sound _ _ _ _ _ _ h
  obtain ⟨h1, h2⟩ := findAt_lit_first ':' [.lit ' '] s pre m post h
  have hm := matchHere_pathExp_some false _ _ h1
  have hm2 : m = [':', ' '] := by
    have : m ++ post = [':', ' '] ++ post := by simpa using hm
    exact List.append_cancel_right this
  subst hm2
  refine ⟨by simpa using hs, ?_⟩
  rintro ⟨u, w, huw⟩
  have := h2 u ([':', ' '] ++ w) (by rw [← huw]; simp) (by simp)
  simp [matchHere] at this

theorem find_pathExp_none_inv (s : List Char) (h : findAt pathExp false s = none) :
    ¬ [':', ' '] <:+: s := by
  rintro ⟨u, w, huw⟩
  have := findAt_lit_none_all ':' [.lit ' '] s h u ([':', ' '] ++ w) (by rw [← huw]; simp)
  simp [matchHere] at this

theorem find_lineColExp_inv (s pre m post : List Char)
    (h : findAt lineColExp false s = some (pre, m, post)) :
    s = pre ++ ':' :: post ∧ ':' ∉ pre := by
  have hs := findAt_sound _ _ _ _ _ _ h
  obtain ⟨h1, h2⟩ := findAt_lit_first ':' [] s pre m post h
  have hm := matchHere_lineColExp_some false _ _ h1
  have hm2 : m = [':'] := by
    have : m ++ post = [':'] ++ post := by simpa using hm
    exact List.append_cancel_right this
  subst hm2
  refine ⟨by simpa using hs, ?_⟩
  intro hmem
  obtain ⟨u, w, huw⟩ := List.append_of_mem hmem
  have := h2 u (':' :: w) huw (by simp)
  simp [matchHere] at this

theorem find_lineColExp_none_inv (s : List Char) (h : findAt lineColExp false s = none) :
    ':' ∉ s := by
  intro hmem
  obtain ⟨u, w, huw⟩ := List.append_of_mem hmem
  have := findAt_lit_none_all ':' [] s h u (':' :: w) huw
  simp [matchHere] at this

theorem find_descExp_inv (s pre m post : List Char)
    (h : findAt descExp false s = some (pre, m, post)) :
    s = pre ++ '.' :: ' ' :: '[' :: post
    ∧ ∀ u v, s = u ++ '.' :: ' ' :: '[' :: v → pre.length ≤ u.length := by
  have hs := findAt_sound _ _ _ _ _ _ h
  obtain ⟨h1, h2⟩ := findAt_lit_first '.' [.lit ' ', .lit '['] s pre m post h
  have hm := matchHere_descExp_some false _ _ h1
  have hm2 : m = ['.', ' ', '['] := by
    have : m ++ post = ['.', ' ', '['] ++ post := by simpa using hm
    exact List.append_cancel_right this
  subst hm2
  have hs2 : s = pre ++ '.' :: ' ' :: '[' :: post := by simpa using hs
  refine ⟨hs2, ?_⟩
  intro u v huv
  by_contra hlt
  have hlt : u.length < pre.length := by omega
  have hpre : u <+: pre := by
    have hu : u <+: s := ⟨_, huv.symm⟩
    have hp : pre <+: s := ⟨_, hs2.symm⟩
    exact List.prefix_of_prefix_length_le hu hp (by omega)
  obtain ⟨w, hw⟩ := hpre
  have hwne : w ≠ [] := by
    rintro rfl
    rw [List.append_nil] at hw
    rw [hw] at hlt
    omega
  have hnone := h2 u w hw.symm hwne
  have heq : w ++ (['.', ' ', '['] ++ post) = '.' :: ' ' :: '[' :: v := by
    have : u ++ (w ++ (['.', ' ', '['] ++ post)) = u ++ ('.' :: ' ' :: '[' :: v) := by
      rw [← List.append_assoc, hw, ← huv]
      simpa using hs2.symm
    exact List.append_cancel_left this
  rw [heq] at hnone
  simp [matchHere] at hnone

theorem find_descExp_none_inv (s : List Char) (h : findAt descExp false s = none) :
    ¬ ['.', ' ', '['] <:+: s := by
  rintro ⟨u, w, huw⟩
  have := findAt_lit_none_all '.' [.lit ' ', .lit '['] s h u (['.', ' ', '['] ++ w)
    (by rw [← huw]; simp)
  simp [matchHere] at this

theorem split_descExp_raw (right raw : List Char)
    (h : goIndex (descExp.Split right) 0 = .ok raw) : IsRawDescription right raw := by
  have e3 : ". [".toList = ['.', ' ', '['] := rfl
  unfold IsRawDescription
  rw [e3]
  cases hf : findAt descExp false right with
  | none =>
    have hs : descExp.Split right = [right] := split_none '.' _ right hf
    rw [hs] at h
    left
    exact ⟨find_descExp_none_inv right hf, (Except.ok.inj h).symm⟩
  | some t =>
    obtain ⟨pre, m, post⟩ := t
    have hs : descExp.Split right = pre :: descExp.Split post := split_some '.' _ right _ _ _ hf
    rw [hs] at h
    have hraw : raw = pre := (Except.ok.inj h).symm
    obtain ⟨h1, h2⟩ := find_descExp_inv right pre m post hf
    right
    refine ⟨post, by rw [hraw, h1]; simp, ?_⟩
    intro u v huv
    rw [hraw]
    exact h2 u v (by rw [huv]; simp)

theorem split_pathExp_two (rest path0 path1 : List Char) (more : List (List Char))
    (h : pathExp.Split rest = path0 :: path1 :: more) :
    ∃ tail, rest = path0 ++ ':' :: ' ' :: (path1 ++ tail)
      ∧ ¬ [':', ' '] <:+: path0 ∧ ¬ [':', ' '] <:+: path1
      ∧ (tail = [] ∨ ∃ t, tail = ':' :: ' ' :: t) := by
  cases hf : findAt pathExp false rest with
  | none =>
    have hs : pathExp.Split rest = [rest] := split_none ':' _ rest hf
    rw [hs] at h
    cases h
  | some t =>
    obtain ⟨pre, m, post⟩ := t
    have hs : pathExp.Split rest = pre :: pathExp.Split post := split_some ':' _ rest _ _ _ hf
    rw [hs] at h
    obtain ⟨hpre, hpost⟩ := List.cons.inj h
    subst hpre
    obtain ⟨h1, h2⟩ := find_pathExp_inv rest pre m post hf
    cases hf2 : findAt pathExp false post with
    | none =>
      have hs2 : pathExp.Split post = [post] := split_none ':' _ post hf2
      rw [hs2] at hpost
      obtain ⟨hp1, -⟩ := List.cons.inj hpost
      subst hp1
      exact ⟨[], by simpa using h1, h2, find_pathExp_none_inv post hf2, Or.inl rfl⟩
    | some t2 =>
      obtain ⟨pre2, m2, post2⟩ := t2
      have hs2 : pathExp.Split post = pre2 :: pathExp.Split post2 :=
        split_some ':' _ post _ _ _ hf2
      rw [hs2] at hpost
      obtain ⟨hp1, -⟩ := List.cons.inj hpost
      subst hp1
      obtain ⟨h3, h4⟩ := find_pathExp_inv post pre2 m2 post2 hf2
      exact ⟨':' :: ' ' :: post2, by rw [h1, h3], h2, h4, Or.inr ⟨post2, rfl⟩⟩

theorem split_lineCol_inv :
    ∀ (n : Nat) (l : List Char), l.length ≤ n →
      lineColExp.Split l ≠ [] ∧ (∀ s ∈ lineColExp.Split l, ':' ∉ s)
      ∧ l = [':'].intercalate (lineColExp.Split l) := by
  intro n
  induction n with
  | zero =>
    intro l hl
    have : l = [] := List.length_eq_zero.mp (by omega)
    subst this
    have hs : lineColExp.Split [] = [[]] := rfl
    rw [hs]
    simp [List.intercalate]
  | succ n ih =>
    intro l hl
    cases hf : findAt lineColExp false l with
    | none =>
      have hs : lineColExp.Split l = [l] := split_none ':' _ l hf
      rw [hs]
      refine ⟨by simp, ?_, by simp [List.intercalate]⟩
      intro s hs
      rw [List.mem_singleton.mp hs]
      exact find_lineColExp_none_inv l hf
    | some t =>
      obtain ⟨pre, m, post⟩ := t
      have hs : lineColExp.Split l = pre :: lineColExp.Split post :=
        split_some ':' _ l _ _ _ hf
      have hlen := findAt_lit_length ':' [] l false pre m post hf
      obtain ⟨h1, h2⟩ := find_lineColExp_inv l pre m post hf
      obtain ⟨i1, i2, i3⟩ := ih post (by omega)
      rw [hs]
      refine ⟨by simp, ?_, ?_⟩
      · intro s hs
        rcases List.mem_cons.mp hs with rfl | hin
        · exact h2
        · exact i2 s hin
      · cases hsp : lineColExp.Split post with
        | nil => exact absurd hsp i1
        | cons y ys =>
          rw [intercalate_colon_cons, ← hsp, ← i3]
          exact h1

/-! ## The shape of a recognised line -/

theorem starLoop_inv (k : Bool → List Char → Option (List Char)) :
    ∀ (t : List Char) (b : Bool) (r : List Char), starLoop k b t = some r →
      ∃ w t2 b2, t = w ++ t2 ∧ (∀ c ∈ w, isWordChar c = true) ∧ k b2 t2 = some r := by
  intro t
  induction t with
  | nil =>
    intro b r h
    exact ⟨[], [], b, rfl, by simp, by simpa [starLoop] using h⟩
  | cons c cs ih =>
    intro b r h
    unfold starLoop at h
    split at h
    · next hc =>
      split at h
      · next r2 hr2 =>
        cases h
        obtain ⟨w, t2, b2, hw, hall, hk⟩ := ih false _ hr2
        refine ⟨c :: w, t2, b2, by rw [hw]; rfl, ?_, hk⟩
        intro x hx
        rcases List.mem_cons.mp hx with rfl | hx
        · exact hc
        · exact hall x hx
      · exact ⟨[], c :: cs, b, rfl, by simp, h⟩
    · exact ⟨[], c :: cs, b, rfl, by simp, h⟩

theorem matchHere_checkExp_some (b : Bool) (t r : List Char)
    (h : matchHere checkExp b t = some r) :
    r = [] ∧ ∃ n, t = '[' :: (n ++ [']']) ∧ ∀ c ∈ n, isWordChar c = true := by
  cases t with
  | nil => simp [checkExp, matchHere] at h
  | cons x t =>
    simp only [checkExp, matchHere] at h
    split at h
    swap
    · cases h
    next hx =>
    obtain ⟨w, t2, b2, hw, hall, hk⟩ := starLoop_inv _ t false r h
    cases t2 with
    | nil => simp [matchHere] at hk
    | cons y t2 =>
      simp only [matchHere] at hk
      split at hk
      swap
      · cases hk
      next hy =>
      split at hk
      swap
      · cases hk
      next he =>
      have ht2 : t2 = [] := by simpa using he
      subst ht2
      simp only [Option.some.injEq] at hk
      exact ⟨hk.symm, w, by rw [hx, hw, hy], hall⟩

theorem parseRight_inv (p cn desc : List Char) (h : parseRight p = .ok (cn, desc)) :
    (∀ c ∈ cn, isWordChar c = true)
    ∧ (∃ d, p = d ++ '[' :: (cn ++ [']']))
    ∧ ∃ raw, desc = raw ++ ".".toList ∧ IsRawDescription p raw := by
  unfold parseRight at h
  simp only [bind, Except.bind, pure, Except.pure] at h
  cases hg : goSlice (checkExp.Find p) 1 (((checkExp.Find p).length : Int) - 1) with
  | error e => rw [hg] at h; cases h
  | ok cn2 =>
    rw [hg] at h
    simp only at h
    cases hd : goIndex (descExp.Split p) 0 with
    | error e => rw [hd] at h; cases h
    | ok raw =>
      rw [hd] at h
      simp only [Except.ok.injEq, Prod.mk.injEq] at h
      obtain ⟨rfl, rfl⟩ := h
      have hraw := split_descExp_raw p raw hd
      rw [find_checkExp_eq] at hg
      cases hf : findAt checkExp false p with
      | none =>
        rw [hf] at hg
        simp [goSlice] at hg
      | some t =>
        obtain ⟨pre, m, post⟩ := t
        rw [hf] at hg
        simp only at hg
        have hs := findAt_sound _ _ _ _ _ _ hf
        obtain ⟨h1, -⟩ := findAt_lit_first '[' _ p pre m post hf
        obtain ⟨hpost, n, hn, hall⟩ := matchHere_checkExp_some false _ _ h1
        subst hpost
        rw [List.append_nil] at hn hs
        subst hn
        rw [goSlice_label] at hg
        have hcn : n = cn2 := Except.ok.inj hg
        subst hcn
        exact ⟨hall, ⟨pre, hs⟩, raw, rfl, hraw⟩

theorem parseLineCol_inv (issue iss : Issue) (segs : List (List Char))
    (h : parseLineCol issue segs = .ok iss) :
    iss.CheckName = issue.CheckName ∧ iss.Description = issue.Description
    ∧ iss.ReportID = issue.ReportID ∧ iss.SourceSnippet = issue.SourceSnippet
    ∧ (segs[0]? = none → iss.FilePath = issue.FilePath)
    ∧ (∀ s, segs[0]? = some s → iss.FilePath = s)
    ∧ (segs[1]? = none → iss.LineNumber = issue.LineNumber)
    ∧ (∀ s, segs[1]? = some s → Atoi s = some iss.LineNumber)
    ∧ (segs[2]? = none → iss.ColumnNumber = issue.ColumnNumber)
    ∧ (∀ s, segs[2]? = some s → Atoi s = some iss.ColumnNumber) := by
  cases segs with
  | nil =>
    simp only [parseLineCol, pure, Except.pure, bind, Except.bind, List.length_nil,
      gt_iff_lt, lt_self_iff_false, if_false, Nat.not_lt_zero, Except.ok.injEq] at h
    subst h
    simp
  | cons p rest =>
    cases rest with
    | nil =>
      rw [parseLineCol_one] at h
      simp only [Except.ok.injEq] at h
      subst h
      simp
    | cons s1 rest2 =>
      cases h1 : Atoi s1 with
      | none =>
        simp [parseLineCol, goIndex, bind, Except.bind, pure, Except.pure, h1, throw,
          throwThe, MonadExceptOf.throw] at h
      | some i =>
        cases rest2 with
        | nil =>
          rw [parseLineCol_two _ _ _ _ h1] at h
          simp only [Except.ok.injEq] at h
          subst h
          simp [h1]
        | cons s2 more =>
          cases h2 : Atoi s2 with
          | none =>
            simp [parseLineCol, goIndex, bind, Except.bind, pure, Except.pure, h1, h2, throw,
              throwThe, MonadExceptOf.throw] at h
          | some j =>
            rw [parseLineCol_three _ _ _ _ _ _ _ h1 h2] at h
            simp only [Except.ok.injEq] at h
            subst h
            simp [h1, h2]

/-- Every recognised line has the shape `[WARN] L: P tail`: the left part `L`
is a list of segments joined by colons and contains no `": "`, the piece `P`
contains no `": "` and is followed by nothing or by `": "` and more text; the
check name and the description are read from `P`, the path and the numbers
from the segments. -/
theorem recognised_shape (line : List Char) (iss : Issue)
    (h : parseLineIssue line = .ok (true, some iss)) :
    ∃ (segs : List (List Char)) (p tail : List Char),
      line = "[WARN] ".toList ++ ([':'].intercalate segs ++ ':' :: ' ' :: (p ++ tail))
      ∧ segs ≠ [] ∧ (∀ s ∈ segs, ':' ∉ s)
      ∧ ¬ [':', ' '] <:+: [':'].intercalate segs ∧ ¬ [':', ' '] <:+: p
      ∧ (tail = [] ∨ ∃ t, tail = ':' :: ' ' :: t)
      ∧ parseRight p = .ok (iss.CheckName, iss.Description)
      ∧ parseLineCol { CheckName := iss.CheckName, Description := iss.Description } segs =
          .ok iss := by
  by_cases hl : "[WARN] ".toList <+: line
  swap
  · rw [parseLineIssue_no_label line hl] at h
    simp at h
  obtain ⟨rest, rfl⟩ := hl
  rw [parseLineIssue_label] at h
  simp only [bind, Except.bind, pure, Except.pure] at h
  cases hsp : pathExp.Split rest with
  | nil => exact absurd hsp (split_ne_nil _ _)
  | cons path0 more1 =>
    cases more1 with
    | nil =>
      rw [hsp] at h
      simp [goIndex] at h
    | cons path1 more =>
      rw [hsp] at h
      simp only [goIndex_succ, goIndex_zero] at h
      cases hr : parseRight path1 with
      | error e => rw [hr] at h; cases h
      | ok cd =>
        rw [hr] at h
        simp only at h
        cases hc : parseLineCol { CheckName := cd.1, Description := cd.2 }
            (lineColExp.Split path0) with
        | error e => rw [hc] at h; cases h
        | ok iss2 =>
          rw [hc] at h
          simp only [Except.ok.injEq, Prod.mk.injEq, Option.some.injEq, true_and] at h
          subst h
          obtain ⟨hcn, hdesc, -⟩ := parseLineCol_inv _ _ _ hc
          simp only at hcn hdesc
          obtain ⟨tail, hrest, hno0, hno1, htail⟩ := split_pathExp_two rest path0 path1 more hsp
          obtain ⟨i1, i2, i3⟩ := split_lineCol_inv path0.length path0 (le_refl _)
          refine ⟨lineColExp.Split path0, path1, tail, ?_, i1, i2, ?_, hno1, htail, ?_, ?_⟩
          · rw [← i3, hrest]
          · rw [← i3]; exact hno0
          · rw [hr, hcn, hdesc]
          · rw [hcn, hdesc]; exact hc

theorem numeral_negative (s : List Char) (v : Int) (h : IsIntNumeral s v) (hv : v < 0) :
    s.head? = some '-' := by
  obtain ⟨ds, -, -, hcase⟩ := h
  rcases hcase with ⟨-, rfl⟩ | ⟨rfl, -⟩
  · omega
  · rfl

theorem recognised_line_form (segs : List (List Char)) (p tail : List Char) :
    "[WARN] ".toList ++ ":".toList.intercalate segs ++ ": ".toList ++ p ++ tail =
      "[WARN] ".toList ++ ([':'].intercalate segs ++ ':' :: ' ' :: (p ++ tail)) := by
  have e1 : ":".toList = [':'] := rfl
  have e2 : ": ".toList = [':', ' '] := rfl
  rw [e1, e2]
  simp

/-- Claim C16, amended. On every line that `parseLineIssue` recognises, the
line number and the column number are integers that fit an `int`: zero when
the segment is absent, and otherwise the value of the segment as a decimal
integer numeral, sign included; such a number is negative only when its
segment begins with a minus sign. -/
theorem parseLineIssue_numbers (line : List Char) (iss : Issue)
    (h : parseLineIssue line = .ok (true, some iss)) :
    ∃ (segs : List (List Char)) (p tail : List Char),
      line = "[WARN] ".toList ++ ":".toList.intercalate segs ++ ": ".toList ++ p ++ tail
      ∧ segs ≠ [] ∧ (∀ s ∈ segs, ':' ∉ s)
      ∧ ¬ ": ".toList <:+: ":".toList.intercalate segs
      ∧ (segs[1]? = none → iss.LineNumber = 0)
      ∧ (∀ s, segs[1]? = some s → IsIntNumeral s iss.LineNumber)
      ∧ (segs[2]? = none → iss.ColumnNumber = 0)
      ∧ (∀ s, segs[2]? = some s → IsIntNumeral s iss.ColumnNumber)
      ∧ minInt ≤ iss.LineNumber ∧ iss.LineNumber ≤ maxInt
      ∧ minInt ≤ iss.ColumnNumber ∧ iss.ColumnNumber ≤ maxInt
      ∧ (iss.LineNumber < 0 → ∃ s, segs[1]? = some s ∧ s.head? = some '-')
      ∧ (iss.ColumnNumber < 0 → ∃ s, segs[2]? = some s ∧ s.head? = some '-') := by
  obtain ⟨segs, p, tail, hline, hne, hcolon, hno, -, -, -, hcol⟩ := recognised_shape line iss h
  obtain ⟨-, -, -, -, -, -, l0, l1, c0, c1⟩ := parseLineCol_inv _ _ _ hcol
  simp only at l0 c0
  have hl : minInt ≤ iss.LineNumber ∧ iss.LineNumber ≤ maxInt := by
    cases hs : segs[1]? with
    | none => rw [l0 hs]; unfold minInt maxInt; omega
    | some s => exact (Atoi_numeral s _ (l1 s hs)).2
  have hc : minInt ≤ iss.ColumnNumber ∧ iss.ColumnNumber ≤ maxInt := by
    cases hs : segs[2]? with
    | none => rw [c0 hs]; unfold minInt maxInt; omega
    | some s => exact (Atoi_numeral s _ (c1 s hs)).2
  refine ⟨segs, p, tail, by rw [recognised_line_form]; exact hline, hne, hcolon, hno, l0,
    fun s hs => (Atoi_numeral s _ (l1 s hs)).1, c0,
    fun s hs => (Atoi_numeral s _ (c1 s hs)).1, hl.1, hl.2, hc.1, hc.2, ?_, ?_⟩
  · intro hneg
    cases hs : segs[1]? with
    | none => rw [l0 hs] at hneg; omega
    | some s => exact ⟨s, rfl, numeral_negative s _ (Atoi_numeral s _ (l1 s hs)).1 hneg⟩
  · intro hneg
    cases hs : segs[2]? with
    | none => rw [c0 hs] at hneg; omega
    | some s => exact ⟨s, rfl, numeral_negative s _ (Atoi_numeral s _ (c1 s hs)).1 hneg⟩

/-- Witness of claim C16, amended: the example line of the report format. -/
theorem parseLineIssue_numbers_witness :
    ∃ (segs : List (List Char)) (p tail : List Char),
      "[WARN] /tmp/build/src/foo.go:12:5: Missing doc comment. [MissingComment]".toList =
        "[WARN] ".toList ++ ":".toList.intercalate segs ++ ": ".toList ++ p ++ tail
      ∧ (∀ s, segs[1]? = some s → IsIntNumeral s 12)
      ∧ (∀ s, segs[2]? = some s → IsIntNumeral s 5) := by
  obtain ⟨segs, p, tail, h1, -, -, -, -, h2, -, h3, -⟩ :=
    parseLineIssue_numbers
      "[WARN] /tmp/build/src/foo.go:12:5: Missing doc comment. [MissingComment]".toList
      { FilePath := "/tmp/build/src/foo.go".toList, LineNumber := 12, ColumnNumber := 5,
        CheckName := "MissingComment".toList, Description := "Missing doc comment.".toList }
      rfl
  exact ⟨segs, p, tail, h1, h2, h3⟩

/-- Counterexample to claim C16 as stated: the line `[WARN] a.go:-5:-7: Bad. [Z]`
is recognised with line number `-5` and column number `-7`. -/
theorem parseLineIssue_negative_numbers :
    parseLineIssue "[WARN] a.go:-5:-7: Bad. [Z]".toList =
        .ok (true, some
          { FilePath := "a.go".toList, LineNumber := -5, ColumnNumber := -7,
            CheckName := "Z".toList, Description := "Bad.".toList })
    ∧ ¬ ((0 : Int) ≤ -5) ∧ ¬ ((0 : Int) ≤ -7) :=
  ⟨rfl, by decide, by decide⟩

/-- Claim C17, the code at the failing inputs.  The text after the label is
split at every `": "`, and the check name and the description are read from
the piece between the first and the second one.  On a line whose description
contains `": "` that piece has no check label and `parseLineIssue` stops with
a slice-bounds panic; when that piece happens to end with a bracketed word,
the check name and the description are taken from it and the rest of the line
is ignored. -/
theorem parseLineIssue_second_separator :
    parseLineIssue
        "[WARN] /a/B.java:3:5: Name must match pattern: lower case. [LocalVariableName]".toList =
      .error .sliceOutOfRange
    ∧ parseLineIssue "[WARN] a.go:1:2: see [X]: use y. [Y]".toList =
        .ok (true, some
          { FilePath := "a.go".toList, LineNumber := 1, ColumnNumber := 2,
            CheckName := "X".toList, Description := "see [X].".toList })
    ∧ pathExp.Split "a.go:1:2: see [X]: use y. [Y]".toList =
        ["a.go:1:2".toList, "see [X]".toList, "use y. [Y]".toList] :=
  ⟨rfl, rfl, rfl⟩

/-- Claim C18, the code at the failing input, and what holds on every
recognised line.  On `[WARN] a.go:1:2: see [X]: use y. [Y]` the right part is
`see [X]: use y. [Y]`, its raw description is `see [X]: use y`, and the
description returned is `see [X].`: it is read from the piece of the right
part before the next `": "`.  On every recognised line the description is the
raw description of that piece `p` with one period appended, so it ends with a
period, and with two when the raw description ends with one; `p` is the whole
right part when no `": "` follows it. -/
theorem parseLineIssue_description :
    (parseLineIssue "[WARN] a.go:1:2: see [X]: use y. [Y]".toList =
        .ok (true, some
          { FilePath := "a.go".toList, LineNumber := 1, ColumnNumber := 2,
            CheckName := "X".toList, Description := "see [X].".toList })
      ∧ IsRawDescription "see [X]: use y. [Y]".toList "see [X]: use y".toList)
    ∧ ∀ (line : List Char) (iss : Issue), parseLineIssue line = .ok (true, some iss) →
        ∃ (l p tail raw : List Char),
          line = "[WARN] ".toList ++ l ++ ": ".toList ++ p ++ tail
          ∧ ¬ ": ".toList <:+: l ∧ ¬ ": ".toList <:+: p
          ∧ (tail = [] ∨ ∃ t, tail = ": ".toList ++ t)
          ∧ IsRawDescription p raw
          ∧ iss.Description = raw ++ ".".toList
          ∧ iss.Description.getLast? = some '.'
          ∧ (raw.getLast? = some '.' → "..".toList <:+ iss.Description) := by
  refine ⟨⟨rfl, split_descExp_raw _ _ rfl⟩, ?_⟩
  intro line iss h
  obtain ⟨segs, p, tail, hline, -, -, hno, hnop, htail, hright, -⟩ := recognised_shape line iss h
  obtain ⟨-, -, raw, hdesc, hraw⟩ := parseRight_inv p _ _ hright
  refine ⟨[':'].intercalate segs, p, tail, raw, ?_, hno, hnop, htail, hraw, hdesc, ?_, ?_⟩
  · rw [hline]
    have e2 : ": ".toList = [':', ' '] := rfl
    rw [e2]
    simp
  · rw [hdesc]
    simp
  · intro hlast
    rw [hdesc]
    obtain ⟨front, hfront⟩ : ∃ front, raw = front ++ ['.'] := by
      cases hr : raw.reverse with
      | nil =>
        have : raw = [] := by simpa using hr
        subst this
        simp at hlast
      | cons x xs =>
        have hraw2 : raw = xs.reverse ++ [x] := by
          have := congrArg List.reverse hr
          simpa using this
        rw [hraw2] at hlast
        have hx : x = '.' := by simpa using hlast
        exact ⟨xs.reverse, by rw [hraw2, hx]⟩
    rw [hfront]
    exact ⟨front, by simp⟩

/-! ## The size of the snippet window -/

theorem window_length (s l : Int) :
    ∀ (lines : List (List Char)) (j : Nat),
      ((((lines.enumFrom j).filter (inWindow s l)).length : Nat) : Int) ≤
        if l < s then 0 else if l < (j : Int) + 1 then 0
        else if s ≤ (j : Int) + 1 then l - j else l - s + 1 := by
  intro lines
  induction lines with
  | nil =>
    intro j
    simp only [List.enumFrom_nil, List.filter_nil, List.length_nil, Nat.cast_zero]
    split
    · exact le_refl _
    · split
      · exact le_refl _
      · split <;> omega
  | cons x rest ih =>
    intro j
    have h := ih (j + 1)
    rw [List.enumFrom_cons]
    by_cases hw : s ≤ (j : Int) + 1 ∧ (j : Int) + 1 ≤ l
    · have hin : inWindow s l (j, x) = true := by simp [inWindow, hw]
      rw [List.filter_cons_of_pos hin, List.length_cons]
      push_cast at h ⊢
      split_ifs at h ⊢ <;> omega
    · have hin : ¬ inWindow s l (j, x) = true := by
        simp only [inWindow, decide_eq_true_eq]; exact hw
      rw [List.filter_cons_of_neg hin]
      push_cast at h ⊢
      split_ifs at h ⊢ <;> omega

/-- Claim C19. For a readable file, a context size `k ≥ 0`, any target line
that is a machine integer (zero, negative and past the end of the file
included) and column 0, the lines `getSnippet` includes are the lines of the
file whose index lies in the window; there are at most `k + 1` of them, and
none when the target line is less than 1. -/
theorem getSnippet_window_size (fs : List Char → Option (List Char)) (k : Int)
    (path file : List Char) (line : Int) (hf : fs path = some file) (hk : 0 ≤ k)
    (hline : line ≤ maxInt) :
    getSnippet fs k path line 0 =
        ((((stringsSplit file "\n".toList).enumFrom 0).filter
          (inWindow (if line < k then line else line - k) line)).map (renderLine line)).flatten
    ∧ ((((stringsSplit file "\n".toList).enumFrom 0).filter
          (inWindow (if line < k then line else line - k) line)).length : Int) ≤ k + 1
    ∧ (line < 1 →
        ((stringsSplit file "\n".toList).enumFrom 0).filter
          (inWindow (if line < k then line else line - k) line) = []
        ∧ getSnippet fs k path line 0 = []) := by
  have hsn : getSnippet fs k path line 0 =
      ((((stringsSplit file "\n".toList).enumFrom 0).filter
        (inWindow (if line < k then line else line - k) line)).map (renderLine line)).flatten := by
    rw [getSnippet_readable fs k path file line hf (by omega), snippetLoop_eq]
    simp
  refine ⟨hsn, ?_, ?_⟩
  · have h := window_length (if line < k then line else line - k) line
      (stringsSplit file "\n".toList) 0
    push_cast at h
    split_ifs at h ⊢ <;> omega
  · intro h1
    have hnil := window_past (if line < k then line else line - k) line
      (stringsSplit file "\n".toList) 0 (by push_cast; omega)
    refine ⟨hnil, ?_⟩
    rw [hsn, hnil]
    rfl

/-- Witness of claim C19: four lines, two lines of context, target line 4. -/
theorem getSnippet_window_size_witness :
    ((((stringsSplit "a\nb\nc\nd".toList "\n".toList).enumFrom 0).filter
        (inWindow (if (4 : Int) < 2 then 4 else 4 - 2) 4)).length : Int) ≤ 2 + 1
    ∧ getSnippet (fun _ => some "a\nb\nc\nd".toList) 2 "f".toList 4 0 = "b\nc\nd".toList :=
  ⟨(getSnippet_window_size (fun _ => some "a\nb\nc\nd".toList) 2 "f".toList
      "a\nb\nc\nd".toList 4 rfl (by decide) (by decide)).2.1,
    by decide⟩

/-- Claim C20, the code at the failing input, and what holds on every
recognised line.  The line `[WARN] a.go:1:2: see [X]: use y` is recognised
with check name `X` although it does not end with `[X]`: the check label is
looked for at the end of the piece of the right part before the next `": "`.
On every recognised line the check name is made of word characters, has no
bracket, and that piece `p` ends with the bracketed check name; the line ends
with it when no `": "` follows `p`. -/
theorem parseLineIssue_checkName :
    (parseLineIssue "[WARN] a.go:1:2: see [X]: use y".toList =
        .ok (true, some
          { FilePath := "a.go".toList, LineNumber := 1, ColumnNumber := 2,
            CheckName := "X".toList, Description := "see [X].".toList })
      ∧ ¬ ("[".toList ++ "X".toList ++ "]".toList <:+ "[WARN] a.go:1:2: see [X]: use y".toList))
    ∧ ∀ (line : List Char) (iss : Issue), parseLineIssue line = .ok (true, some iss) →
        (∀ c ∈ iss.CheckName, isWordChar c = true)
        ∧ '[' ∉ iss.CheckName ∧ ']' ∉ iss.CheckName
        ∧ ∃ (l p tail : List Char),
          line = "[WARN] ".toList ++ l ++ ": ".toList ++ p ++ tail
          ∧ ¬ ": ".toList <:+: l ∧ ¬ ": ".toList <:+: p
          ∧ (tail = [] ∨ ∃ t, tail = ": ".toList ++ t)
          ∧ "[".toList ++ iss.CheckName ++ "]".toList <:+ p
          ∧ (tail = [] → "[".toList ++ iss.CheckName ++ "]".toList <:+ line) := by
  refine ⟨⟨rfl, by decide⟩, ?_⟩
  intro line iss h
  obtain ⟨segs, p, tail, hline, -, -, hno, hnop, htail, hright, -⟩ := recognised_shape line iss h
  obtain ⟨hword, ⟨d, hd⟩, -⟩ := parseRight_inv p _ _ hright
  have hsuf : "[".toList ++ iss.CheckName ++ "]".toList <:+ p :=
    ⟨d, by rw [hd]; simp⟩
  have hform : line = "[WARN] ".toList ++ [':'].intercalate segs ++ ": ".toList ++ p ++ tail := by
    rw [hline]
    have e2 : ": ".toList = [':', ' '] := rfl
    rw [e2]
    simp
  refine ⟨hword, fun hm => (isWordChar_bracket _ (hword _ hm)).1 rfl,
    fun hm => (isWordChar_bracket _ (hword _ hm)).2 rfl,
    [':'].intercalate segs, p, tail, hform, hno, hnop, htail, hsuf, ?_⟩
  intro ht
  rw [hform, ht, List.append_nil]
  exact hsuf.trans (List.suffix_append _ _)

end Checkstyle
